import Mathlib

/-!
Shallow embedding of the ASM-Formatter core (src/asmformat/FormatFile.cpp).

Text is modeled as `List Char`.  The C++ code reads a `std::wstringstream`
line-by-line with `std::getline` and rewrites it with ECMAScript
`std::regex` operations; every regex used by the source is replaced here by
an explicit character-level function implementing exactly the behavior of
that regex on the strings it is applied to (the regexes are all anchored or
single-match, see the comment at each definition).  The wide and ANSI
functions `FormatFileW` / `FormatFileA` are textually identical up to the
character type, so a single model covers both.
-/

namespace AsmFormat

/-- Text/lines are sequences of characters. -/
abbrev Str := List Char

/-- ECMAScript `\s` class: space, tab, CR, LF, vertical tab, form feed.
Lines produced by `getline` never contain a line feed. -/
def isWs (c : Char) : Bool :=
  c = ' ' || c = '\t' || c = '\r' || c = '\n' || c = '\x0b' || c = '\x0c'

/-- ECMAScript `\w` class: ASCII letters, digits and underscore. -/
def isWordChar (c : Char) : Bool :=
  ('a' ≤ c && c ≤ 'z') || ('A' ≤ c && c ≤ 'Z') || ('0' ≤ c && c ≤ '9') || c = '_'

/-- ASCII lower-casing, for the `icase` regex flag. -/
def lowerC (c : Char) : Char :=
  if 'A' ≤ c ∧ c ≤ 'Z' then Char.ofNat (c.toNat + 32) else c

/-- Case-insensitive character comparison (`icase`). -/
def eqI (a b : Char) : Bool := lowerC a = lowerC b

/-- Case-insensitive "the string starts with the pattern" test. -/
def startsWithI : Str → Str → Bool
  | [], _ => true
  | _ :: _, [] => false
  | p :: ps, c :: cs => eqI p c && startsWithI ps cs

/-- The lines a `while (std::getline(stream, line).good())` loop processes:
all line-feed terminated lines, in order.  When the data does not end with
a line feed, the final `getline` extracts the unterminated tail but sets
`eofbit`, so `.good()` is false and the loop body never sees that tail:
the tail is dropped.  An empty stream yields no lines. -/
def getlines : Str → List Str
  | [] => []
  | c :: cs =>
    if c = '\n' then [] :: getlines cs
    else
      match getlines cs with
      | [] => []
      | l :: ls => (c :: l) :: ls

/-- Line breaks used in file (FormatFile.hpp). -/
inductive LineBreak
  | LF
  | CRLF
  | CR
  | Preserve
deriving DecidableEq, Repr

/-- Model of `GetLineBreak`: peek the first line (characters before the
first line feed, or the whole data if none); LF unless that line is
nonempty and ends with a carriage return. -/
def GetLineBreak (s : Str) : LineBreak :=
  let l := s.takeWhile (fun c => c ≠ '\n')
  if l ≠ [] ∧ l.getLast? = some '\r' then .CRLF else .LF

/-- The `if (!line.empty() && crlf) line.erase(line.cend() - 1)` step:
drop the last character of a nonempty line when the detected break is CRLF
(the source drops it without checking that it is a carriage return). -/
def dropCR (crlf : Bool) (l : Str) : Str :=
  if crlf && !l.isEmpty then l.dropLast else l

/-- `std::regex_replace(line, "\s+$", "")`: without the `multiline` flag
the `$` assertion only holds at the very end, so exactly the maximal
trailing whitespace run is removed. -/
def trimTrailing (l : Str) : Str := (l.reverse.dropWhile isWs).reverse

/-- `std::regex_replace(line, "^\s+(.*)", "$1")` followed by the trailing
trim.  `^` only matches at position 0, `\s+` greedily takes the maximal
leading whitespace run and the replacement keeps the rest (the `.`
exclusion of CR is immaterial here because only the matched part is
replaced and the remainder of the line is copied verbatim), so the
combined effect is trimming both ends. -/
def trimLine (l : Str) : Str := trimTrailing (l.dropWhile isWs)

/-- Position `k` of a line satisfies the lookahead `(?=\s*;)`: from `k`,
zero or more whitespace characters and then a semicolon. -/
def lookaheadSemi (l : Str) (k : Nat) : Bool :=
  ((l.drop k).dropWhile isWs).head? = some ';'

/-- Model of `regex_search(line, match, "^(.*?)(?=\s*;)")` used by the
first pass: the lazy `(.*?)` finds the least `k` whose suffix satisfies
the lookahead; `.` does not match CR, so the match exists only when the
first `k` characters are CR-free.  Returns the length of group 1. -/
def codeLenOfLine (l : Str) : Option Nat :=
  (List.range (l.length + 1)).find? fun k =>
    lookaheadSemi l k && !(l.take k).contains '\r'

/-- One step of the running maximum `if (codelen > maxcodelen)` of the
first pass, applied to a trimmed line (skipped for comment lines). -/
def maxCodeStep (m : Nat) (l : Str) : Nat :=
  if l.head? = some ';' then m
  else
    match codeLenOfLine l with
    | some k => if k > m then k else m
    | none => m

/-- The first pass over the raw data: split into complete lines, drop the
CRLF carriage return, trim both ends.  (The source skips the trimming for
empty lines, which is the identity on them.) -/
def pass1lines (crlf : Bool) (s : Str) : List Str :=
  (getlines s).map fun l => trimLine (dropCR crlf l)

/-- MASM directives recognized by the formatter (`enum class Directive`).
`endd` stands for the reserved word `end`. -/
inductive Directive
  | none
  | proc
  | endp
  | data
  | code
  | const
  | endd
deriving DecidableEq, Repr

/-- Instruction mnemonics recognized by the formatter. -/
inductive Mnemonic
  | none
  | call
deriving DecidableEq, Repr

/-- Result of `GetLineInfo` (`struct LineInfo`; the `comment` and `blank`
fields are never set by `GetLineInfo`, they are used only through the
global `previous_line`, modeled separately by `PrevLine`). -/
structure LineInfo where
  comment : Bool := false
  blank : Bool := false
  label : Bool := false
  mnemonic : Mnemonic := .none
  directive : Directive := .none
deriving DecidableEq, Repr

/-- `regex_search(line, "^\w+\s+KW", icase)`: a maximal nonempty leading
word run, then a nonempty whitespace run, then the keyword,
case-insensitively.  Backtracking cannot trade characters between `\w+`
and `\s+` because the classes are disjoint. -/
def matchIdentThenKw (kw : Str) (l : Str) : Bool :=
  let w := l.takeWhile isWordChar
  let r1 := l.drop w.length
  let s := r1.takeWhile isWs
  !w.isEmpty && !s.isEmpty && startsWithI kw (r1.drop s.length)

/-- `regex_search(line, "^\w+:", icase)`: a nonempty leading word run
immediately followed by a colon. -/
def matchLabel (l : Str) : Bool :=
  let w := l.takeWhile isWordChar
  !w.isEmpty && ((l.drop w.length).head? = some ':')

/-- Model of `GetLineInfo`: the fixed priority order of the regex tests of
the source, first match wins. -/
def GetLineInfo (l : Str) : LineInfo :=
  if startsWithI "call".toList l then { mnemonic := .call }
  else if matchIdentThenKw "proc".toList l then { directive := .proc }
  else if matchIdentThenKw "endp".toList l then { directive := .endp }
  else if matchLabel l then { label := true }
  else if startsWithI ".data".toList l then { directive := .data }
  else if startsWithI ".code".toList l then { directive := .code }
  else if startsWithI ".const".toList l then { directive := .const }
  else if startsWithI "end".toList l then { directive := .endd }
  else {}

/-- `TestIndentLine`: everything is indented except labels and the five
section/procedure directives (note: an `end` directive line is indented). -/
def TestIndentLine (li : LineInfo) : Bool :=
  match li.directive with
  | .proc | .endp | .code | .data | .const => false
  | _ => !li.label

/-- Model of `PeekNextCodeLine` acting on the list of remaining lines
(the stream position is restored by the source, so peeks are pure):
skip comment lines; stop at the first non-comment line.  Returns the code
line found (or an empty string, matching the cleared `getline` buffer)
and the `fail` flag: true when a blank line was reached with
`skip_blanks = false` or the end of data was reached. -/
def PeekNextCodeLine (skipBlanks : Bool) : List Str → Str × Bool
  | [] => ([], true)
  | l :: ls =>
    if l.head? = some ';' then PeekNextCodeLine skipBlanks ls
    else if l.isEmpty then
      if skipBlanks then PeekNextCodeLine skipBlanks ls else ([], true)
    else (l, false)

/-- Model of `GetBlankCount`: the number of consecutive blank lines at the
current position. -/
def GetBlankCount : List Str → Nat
  | [] => 0
  | l :: ls => if l.isEmpty then GetBlankCount ls + 1 else 0

/-- Immutable configuration of one formatting run (the four parameters of
`FormatFileW`). -/
structure Config where
  tab_width : Nat
  spaces : Bool
  compact : Bool
  line_break : LineBreak
deriving DecidableEq, Repr

/-- The `tab` string: `tab_width` spaces, or one tab character. -/
def tabStr (cfg : Config) : Str :=
  if cfg.spaces then List.replicate cfg.tab_width ' ' else ['\t']

/-- `maxmissing = tab_width - maxcodelen % tab_width`: characters missing
to fill the tab stop after the longest inline-commented code line.
(Well defined as `size_t` arithmetic whenever `tab_width > 0`, which the
command line interface guarantees.) -/
def maxmissing (tw mcw : Nat) : Nat := tw - mcw % tw

/-- `regex_replace(s, "^;\s*", repl)`: anchored, so at most one match;
when the string starts with a semicolon, that semicolon and the maximal
whitespace run after it are replaced by `repl` (the source passes
`"; "` or tab + `"; "`). -/
def commentNormalize (repl : Str) (l : Str) : Str :=
  match l with
  | ';' :: rest => repl ++ rest.dropWhile isWs
  | _ => l

/-- Group decomposition of the anchored comment-alignment regex
`"^(" + tab + ")?(.*?)(?=\s*;)(\s*)(;.*)"` at position 0:
the optional literal group 1 takes the `tab` prefix when present (a
semicolon can never occur inside `tab`, so dropping the optional group
can never make an otherwise failing match succeed); the lazy group 2
spans positions `[p, k)` for the least `k ≥ p` satisfying the `(?=\s*;)`
lookahead with a CR-free group 2 (`.` does not match CR).
Returns `(p, k)` when the regex matches. -/
def alignK (tab l : Str) : Option (Nat × Nat) :=
  let p := if tab.isPrefixOf l then tab.length else 0
  match (List.range (l.length + 1)).find? (fun k =>
      decide (p ≤ k) && lookaheadSemi l k && !((l.drop p).take (k - p)).contains '\r') with
  | some k => some (p, k)
  | none => none

/-- The padding appended between code and comment: the character-count
shortfall `diff = maxcodelen - codelen + maxmissing` as literal spaces
(plus `tab_width` when the line is not indented), or as
`diff / tab_width` tabs rounded up to whole tabs (plus one when the line
is not indented).  `maxcodelen - codelen` never underflows because the
second pass aligns exactly the lines measured by the first pass
(`codeLen_le_maxCode` below), so Nat subtraction is faithful to the
`size_t` subtraction of the source. -/
def alignPad (cfg : Config) (mcw codelen : Nat) (indent : Bool) : Str :=
  let diff := mcw - codelen + maxmissing cfg.tab_width mcw
  if cfg.spaces then
    List.replicate (if !indent then diff + cfg.tab_width else diff) ' '
  else
    let tc0 := diff / cfg.tab_width
    let tc1 := if !indent then tc0 + 1 else tc0
    List.replicate (if diff % cfg.tab_width ≠ 0 then tc1 + 1 else tc1) '\t'

/-- The comment-alignment step of the second pass applied to the line
after indentation.  When the alignment regex matches:
group 3 runs from `k` to the semicolon at `i`; group 4 is the semicolon
and everything after it up to the next CR (exclusive) or the end; the
part of the line after the match end survives both `regex_replace` calls,
so `code = $1$2 ++ rest = take k ++ rest` and
`comment = $4 ++ rest = drop i`, to which `"^;\s*"` → `"; "` is applied;
finally `line = code ++ padding ++ comment`. -/
def alignApply (cfg : Config) (mcw : Nat) (indent : Bool) (l : Str) : Str :=
  match alignK (tabStr cfg) l with
  | none => l
  | some (p, k) =>
    let codelen := k - p
    let i := k + ((l.drop k).takeWhile isWs).length
    let g4end := i + 1 + ((l.drop (i + 1)).takeWhile (fun c => c ≠ '\r')).length
    let code := l.take k ++ l.drop g4end
    let comment := commentNormalize "; ".toList (l.drop i)
    code ++ alignPad cfg mcw codelen indent ++ comment

/-- The mutable fields of the module-global `static LineInfo
previous_line` that the formatter actually reads and writes
(`previous_line.blank` and `previous_line.comment`; the other fields of
the global are never consulted). -/
structure PrevLine where
  blank : Bool := false
  comment : Bool := false
deriving DecidableEq, Repr

/-- Does the directive get a separating blank line before it
(the `proc`, `.data`, `.code`, `.const` switch cases)? -/
def isSectionDirective : Directive → Bool
  | .proc | .data | .code | .const => true
  | _ => false

/-- The decisions of the directive `switch` of the second pass for a code
line: (emit a blank line before, lines to skip next, request a blank line
after).  `Directive::end` falls into the `default` label which is grouped
with `Directive::none`, hence handled by the mnemonic switch. -/
def codeLineSwitch (prev : PrevLine) (li ni : LineInfo) (isend : Bool)
    (rest : List Str) : Bool × Nat × Bool :=
  if isSectionDirective li.directive then
    (!(prev.blank || prev.comment), GetBlankCount rest, false)
  else if li.directive = .endp then
    if !isend then
      let blanks := GetBlankCount rest
      if ni.directive = .endd then (false, blanks, false)
      else if blanks = 0 then (false, 0, true)
      else (false, 0, false)
    else (false, 0, false)
  else
    match li.mnemonic with
    | .call => (false, 0, true)
    | .none => if !isend && ni.label then (false, 0, true) else (false, 0, false)

/-- The second loop of `FormatFileW`, acting on the trimmed lines produced
by the first pass (the stream written back by `filedata.str(result)`
consists exactly of those lines, each terminated by `linebreak`, so the
`getline`/CR-drop of the loop reproduces them and the peeks are pure
functions of the remaining list).  Arguments after the configuration:
the emitted text is returned together with the final values of the
globals `previous_line` (blank/comment) and `insert_blankline`. -/
def pass2 (cfg : Config) (br : Str) (mcw : Nat) :
    PrevLine → Bool → Nat → List Str → Str × PrevLine × Bool
  | prev, insertB, _, [] => ([], prev, insertB)
  | prev, insertB, Nat.succ n, _ :: ls => pass2 cfg br mcw prev insertB n ls
  | prev, insertB, 0, l :: ls =>
    if l.isEmpty then
      -- blank line: previous_line.blank := true, emit the line break,
      -- then the insert_blankline check at the bottom of the loop
      let st : PrevLine := { prev with blank := true }
      let r := pass2 cfg br mcw (if insertB then { st with blank := true } else st) false 0 ls
      ((br ++ (if insertB then br else [])) ++ r.1, r.2)
    else if l.head? = some ';' then
      -- comment line
      let pk := PeekNextCodeLine false ls
      let ni := if pk.2 then ({} : LineInfo) else GetLineInfo pk.1
      let nextIndent := !pk.2 && TestIndentLine ni
      let line' := commentNormalize
        ((if nextIndent then tabStr cfg else []) ++ "; ".toList) l
      let secIns := !(prev.blank || prev.comment) && isSectionDirective ni.directive
      let st : PrevLine := { blank := insertB, comment := true }
      let r := pass2 cfg br mcw st false 0 ls
      (((if secIns then br else []) ++ line' ++ br ++ (if insertB then br else [])) ++ r.1,
        r.2)
    else
      -- code line
      let pk := PeekNextCodeLine true ls
      let li := GetLineInfo l
      let ni := GetLineInfo pk.1
      let dec := codeLineSwitch prev li ni pk.2 ls
      let indent := TestIndentLine li
      let line1 := if indent then tabStr cfg ++ l else l
      let line' := alignApply cfg mcw indent line1
      let ib := insertB || dec.2.2
      let st : PrevLine := { blank := ib, comment := false }
      let r := pass2 cfg br mcw st false dec.2.1 ls
      (((if dec.1 then br else []) ++ line' ++ br ++ (if ib then br else [])) ++ r.1,
        r.2)

/-- Number of consecutive copies of the nonempty unit `u` at the front of
`s` (fuel-driven; `u` consumes at least one character per step so
`s.length` steps always suffice). -/
def countLeadingRepAux (u : Str) : Nat → Str → Nat
  | 0, _ => 0
  | fuel + 1, s =>
    if u.isPrefixOf s ∧ u ≠ [] then countLeadingRepAux u fuel (s.drop u.length) + 1
    else 0

/-- Number of consecutive copies of `u` at the front of `s`. -/
def countLeadingRep (u s : Str) : Nat := countLeadingRepAux u s.length s

/-- `regex_replace(result, "^(" + linebreak + "){2,}", linebreak)` —
with or without `match_continuous` and in both the `compact` and the
non-`compact` branch: `^` (ECMAScript, no `multiline` flag) asserts
position 0 only and `regex_replace` resumes with `match_prev_avail`, so
in every case at most the one maximal leading run of line breaks is
matched, and it is collapsed to a single break when it has length at
least two. -/
def collapseLeadingBreaks (br s : Str) : Str :=
  let k := countLeadingRep br s
  if 2 ≤ k then br ++ s.drop (k * br.length) else s

/-- The lookahead `(?=\w+\s+endp)` (icase) applied to the rest of the
buffer: its shape is the same word-then-whitespace-then-keyword pattern
as the `endp` classifier regex (`\s` may cross line breaks here, which
`matchIdentThenKw` permits since it is defined on plain character
lists). -/
def endpLookahead (s : Str) : Bool := matchIdentThenKw "endp".toList s

/-- `regex_replace(result, "^(" + linebreak + ")+(?=\w+\s+endp)", "")`:
`^` again restricts the match to position 0; the greedy `(br)+` must take
the whole maximal leading run (a shorter take leaves the rest starting
with a break character, which `\w+` rejects).  So: when the buffer starts
with line breaks immediately followed by word characters, whitespace and
`endp`, that leading run of breaks is removed; nothing else is touched. -/
def removeEndpLeadingBreaks (br s : Str) : Str :=
  let k := countLeadingRep br s
  if 1 ≤ k ∧ endpLookahead (s.drop (k * br.length)) then s.drop (k * br.length) else s

/-- `regex_replace(result, "(" + linebreak + "){2,}$", linebreak)`:
`$` holds at the end only, so the single possible match is the maximal
trailing run of line breaks (counted through the reversal of the
string), collapsed to one break when it has length at least two. -/
def collapseTrailingBreaks (br s : Str) : Str :=
  let m := countLeadingRep br.reverse s.reverse
  if 2 ≤ m then (s.reverse.drop (m * br.length)).reverse ++ br else s

/-- Model of `wsl::ReplaceAll` (utils.cpp): scan left to right over the
original string, replacing each non-overlapping occurrence of `pat` and
resuming after it; replacement text is never rescanned.  (The source
would loop forever on an empty `pat`; it is only called with line-break
strings.)  Fuel-driven with one unit per consumed character. -/
def replaceAllAux (pat rep : Str) : Nat → Str → Str
  | 0, s => s
  | fuel + 1, s =>
    match s with
    | [] => []
    | c :: cs =>
      if pat.isPrefixOf s ∧ pat ≠ [] then
        rep ++ replaceAllAux pat rep fuel (s.drop pat.length)
      else c :: replaceAllAux pat rep fuel cs

/-- `wsl::ReplaceAll source pat rep`. -/
def ReplaceAll (pat rep s : Str) : Str := replaceAllAux pat rep s.length s

/-- Errors the formatter can report through `ShowError` (which displays a
message and returns; it does not abort the process). -/
inductive FmtError
  | ParseFailure
  | NotImplemented
deriving DecidableEq, Repr

/-- The blank-line normalization of `FormatFileW` after the second loop:
ensure the first line is blank, collapse the leading run of blank lines
(both `compact` branches reduce to the same anchored collapse, see
`collapseLeadingBreaks`), remove leading blank lines before an `endp`
line, collapse the trailing run of blank lines. -/
def normalizeResult (cfg : Config) (br s : Str) : Str :=
  let r1 := if br.isPrefixOf s then s else br ++ s
  let r2 := if cfg.compact then collapseLeadingBreaks br r1 else collapseLeadingBreaks br r1
  let r3 := removeEndpLeadingBreaks br r2
  collapseTrailingBreaks br r3

/-- `FormatFileW` (and the textually identical `FormatFileA`), starting
from a given state of the global `previous_line`: returns the final
contents of `filedata` together with the error reported, if any.

The two `filedata.bad() || (!filedata.eof() && filedata.fail())` guards
can never fire for an in-memory string stream (`badbit` is never set and
a failing `getline` at end of data always sets `eofbit` together with
`failbit`), so the `ParseFailure` paths are unreachable and the model
always runs the full pipeline.  When the unsupported CR break style is
requested and the detected style is CRLF the source reports
`NotImplemented` but still falls through and commits the formatted result
to `filedata`. -/
def FormatFileWFrom (prev : PrevLine) (cfg : Config) (input : Str) :
    Str × Option FmtError :=
  let crlf : Bool := decide (GetLineBreak input = .CRLF)
  let br : Str := if crlf then ['\r', '\n'] else ['\n']
  -- `preserve = (line_break == Preserve) || (crlf != (line_break != CRLF))`
  let preserve : Bool :=
    decide (cfg.line_break = .Preserve) || (crlf != decide (cfg.line_break ≠ .CRLF))
  let ls := pass1lines crlf input
  let mcw := ls.foldl maxCodeStep 0
  let body := (pass2 cfg br mcw prev false 0 ls).1
  let r := normalizeResult cfg br body
  if preserve then (r, none)
  else
    match cfg.line_break with
    | .LF => (ReplaceAll br ['\n'] r, none)
    | .CRLF => (ReplaceAll br ['\r', '\n'] r, none)
    | .CR => (r, some .NotImplemented)
    | .Preserve => (r, none)

/-- `FormatFileW` as called on a fresh process state: the static
`previous_line` is zero-initialized (and every prior run leaves
`insert_blankline` false, see `pass2_insert_false`). -/
def FormatFileW (cfg : Config) (input : Str) : Str × Option FmtError :=
  FormatFileWFrom {} cfg input

/-- `FormatFileA` is character-for-character the same algorithm over
byte strings; the model is shared. -/
def FormatFileA (cfg : Config) (input : Str) : Str × Option FmtError :=
  FormatFileW cfg input

/-! Auxiliary definitions used to state the claims: spec-worded
definitions for refinement comparisons, and input/output helpers. -/

/-- All lines of a buffer in the naive sense of the specification,
including a final line not terminated by a line feed. -/
def splitLines : Str → List Str
  | [] => [[]]
  | c :: cs =>
    if c = '\n' then [] :: splitLines cs
    else
      match splitLines cs with
      | [] => [[c]]
      | l :: ls => (c :: l) :: ls

/-- Worded from the specification of `MaxCodeWidth` (one line): for a line
that is not comment-only and contains an inline comment delimiter, the
character length of the content before the delimiter after leading and
trailing whitespace trimming; none otherwise. -/
def specInlineCodeWidth (l : Str) : Option Nat :=
  let t := trimLine l
  if t.head? = some ';' then none
  else if t.contains ';' then
    some (trimTrailing (t.takeWhile fun c => c ≠ ';')).length
  else none

/-- Worded from the specification of `MaxCodeWidth`: the maximum of
`specInlineCodeWidth` over all lines of the input, 0 when no line
contributes. -/
def specMaxCodeWidth (input : Str) : Nat :=
  ((splitLines input).filterMap specInlineCodeWidth).foldr max 0

/-- The `maxcodelen` value the source computes for a buffer (the running
maximum of the first pass). -/
def computedMaxCodeWidth (crlf : Bool) (input : Str) : Nat :=
  (pass1lines crlf input).foldl maxCodeStep 0

/-- The character column at which the first semicolon of a line begins
(the length of the part before it). -/
def firstSemiCol (l : Str) : Nat := (l.takeWhile fun c => c ≠ ';').length

/-- Worded from the claim: the smallest tab-stop/space count greater than
or equal to `n`, for tab stops every `tw` characters. -/
def smallestStopGE (tw n : Nat) : Nat := (n + tw - 1) / tw * tw

/-- The non-whitespace characters of a buffer, in order. -/
def nonWsChars (s : Str) : Str := s.filter fun c => !isWs c

/-- Join lines with an explicit line-break string (how a well-formed
buffer with consistent terminators is assembled from its lines). -/
def joinBr (br : Str) (ls : List Str) : Str := (ls.map fun l => l ++ br).flatten

/-- The string `u` repeated `n` times (used to reason about runs of line
breaks). -/
def repStr (u : Str) : Nat → Str
  | 0 => []
  | n + 1 => u ++ repStr u n

/-- A well-formed source line: free of line feeds and carriage returns. -/
def lineWF (l : Str) : Prop := ('\n' ∉ l) ∧ ('\r' ∉ l)

instance (l : Str) : Decidable (lineWF l) := by
  unfold lineWF
  exact inferInstance

/-- The lines of the final buffer produced by a formatting run, with the
carriage return of a CRLF terminator stripped. -/
def outputLines (cfg : Config) (input : Str) : List Str :=
  (getlines (FormatFileW cfg input).1).map fun l =>
    if l.getLast? = some '\r' then l.dropLast else l

/-- A typical tabs configuration (tab width 4, tabs, no compaction,
preserve line breaks). -/
def cfgTabs : Config :=
  { tab_width := 4, spaces := false, compact := false, line_break := .Preserve }

/-- A typical spaces configuration. -/
def cfgSp : Config :=
  { tab_width := 4, spaces := true, compact := false, line_break := .Preserve }

/-- A configuration requesting the unsupported CR line-break style. -/
def cfgCRreq : Config :=
  { tab_width := 4, spaces := false, compact := false, line_break := .CR }

/-- Conditions on a tail string that make it inert for `endpLookahead`:
nonempty, all whitespace, no word characters, and no characters matching
the letters of `endp` case-insensitively (runs of line breaks satisfy
this). -/
def lookaheadInert (T : Str) : Prop :=
  T ≠ [] ∧ (∀ c ∈ T, isWs c = true) ∧ (∀ c ∈ T, isWordChar c = false) ∧
    (∀ c ∈ T, ∀ pc ∈ ("endp".toList : Str), eqI pc c = false)

/-! Theorems.  General supporting lemmas come with each claim group. -/

/-- Claim C1 (code bug): non-whitespace content is NOT always preserved.
The `while (std::getline(...).good())` loops drop a final line that is
not terminated by a line feed (the final `getline` sets `eofbit`, so
`.good()` is false and the loop body never appends that line), so
formatting the buffer `"mov"` yields `"\n"`: the non-whitespace content
`mov` of the input is absent from the output. -/
theorem C1_content_dropped :
    (FormatFileW cfgTabs "mov".toList).1 = ['\n'] ∧
    nonWsChars (FormatFileW cfgTabs "mov".toList).1 ≠ nonWsChars "mov".toList := by
  decide

/-- Claim C3 (code bug): formatting is NOT idempotent.  A `call` line
unconditionally requests a blank line after itself, without checking
whether a blank line already follows, so re-formatting the output of
`"call foo\nmov eax, 1\n"` inserts a second blank line after the `call`
line: the output grows on every run. -/
theorem C3_not_idempotent :
    (FormatFileW cfgTabs ((FormatFileW cfgTabs "call foo\nmov eax, 1\n".toList).1)).1 ≠
      (FormatFileW cfgTabs "call foo\nmov eax, 1\n".toList).1 := by
  decide

/-- Claim C2, counterexample: a failure path that alters the buffer.
Requesting the unsupported CR line-break style on a CRLF-detected input
reports `NotImplemented`, but the source does not abort: it falls
through and commits the formatted result, so the caller's buffer is
changed on this failure path. -/
theorem C2_counterexample :
    (FormatFileW cfgCRreq "x\r\n".toList).2 = some FmtError.NotImplemented ∧
    (FormatFileW cfgCRreq "x\r\n".toList).1 ≠ "x\r\n".toList := by
  decide

set_option maxHeartbeats 2000000 in
/-- Claim C9 (confirmed): formatting an empty buffer reports no error and
produces exactly one line break (a single leading blank line) — the
requested terminator when CRLF is requested, otherwise a line feed — and
the detected line-break style of an empty buffer defaults to LF. -/
theorem C9_empty_input (cfg : Config) :
    (FormatFileW cfg []).1 = (if cfg.line_break = .CRLF then ['\r', '\n'] else ['\n']) ∧
    (FormatFileW cfg []).2 = none ∧ GetLineBreak [] = .LF := by
  obtain ⟨tw, sp, cp, lb⟩ := cfg
  cases lb <;> cases cp <;> cases sp <;>
    simp [FormatFileW, FormatFileWFrom, pass1lines, getlines, GetLineBreak, normalizeResult,
      collapseLeadingBreaks, countLeadingRep, countLeadingRepAux, removeEndpLeadingBreaks,
      endpLookahead, matchIdentThenKw, collapseTrailingBreaks, ReplaceAll, replaceAllAux,
      pass2, maxCodeStep, isWs, isWordChar, startsWithI, List.isPrefixOf]

/-- Claim C6, counterexample: blank lines immediately preceding a
`ProcEnd` line are NOT removed in general.  The cleanup regex
`"^(linebreak)+(?=\w+\s+endp)"` is anchored by `^`, which (ECMAScript,
no `multiline` flag) matches only at position 0 of the buffer, so an
interior blank line before `foo endp` survives, for both values of
`compact` (the blank line is at index 2, immediately before the
`ProcEnd` line at index 3). -/
theorem C6_counterexample :
    outputLines cfgTabs "mov eax, 1\n\nfoo endp\n".toList =
      [[], "\tmov eax, 1".toList, [], "foo endp".toList] ∧
    outputLines { cfgTabs with compact := true } "mov eax, 1\n\nfoo endp\n".toList =
      [[], "\tmov eax, 1".toList, [], "foo endp".toList] ∧
    (GetLineInfo "foo endp".toList).directive = .endp := by
  decide

/-- Claim C4, counterexample: the common comment column does NOT equal
the smallest tab stop at or above the maximum code width.  For the input
`"mov eax, 1 ;c\n"` with tab width 4 and spaces, the computed maximum
code width is 10, the smallest stop at or above it is 12, but the
delimiter is placed at character column 16 (one indentation unit plus
the next strictly greater tab stop). -/
theorem C4_counterexample :
    outputLines cfgSp "mov eax, 1 ;c\n".toList = [[], "    mov eax, 1  ; c".toList] ∧
    computedMaxCodeWidth false "mov eax, 1 ;c\n".toList = 10 ∧
    firstSemiCol "    mov eax, 1  ; c".toList = 16 ∧
    smallestStopGE cfgSp.tab_width 10 = 12 := by
  decide

/-- Claim C7, counterexample: the computed `MaxCodeWidth` does not match
the specified maximum over all input lines when the final line is not
line-feed terminated: that line is dropped by the `getline` loop, so the
source computes 0 while the description over the input lines gives 7. -/
theorem C7_counterexample :
    computedMaxCodeWidth false "mov eax ;c".toList = 0 ∧
    specMaxCodeWidth "mov eax ;c".toList = 7 ∧
    GetLineBreak "mov eax ;c".toList = .LF := by
  decide

/-- Claim C8, counterexample: a line whose first token is an identifier
immediately followed by a colon is NOT always classified as a label: the
`"^call"` mnemonic test runs first and matches any line beginning with
the letters `call`, so `callme:` is classified as a `call` mnemonic and
not as a label. -/
theorem C8_counterexample :
    GetLineInfo "callme:".toList = { mnemonic := .call } ∧
    (GetLineInfo "callme:".toList).label = false := by
  decide

/-- Supporting lemma: the maximal word run of `w ++ ':' :: rest` is `w`
when `w` consists of word characters (a colon is not a word character). -/
theorem takeWhile_word_colon (w rest : Str) (hw : ∀ c ∈ w, isWordChar c) :
    (w ++ ':' :: rest).takeWhile isWordChar = w := by
  induction w with
  | nil => simp [List.takeWhile_cons, show isWordChar ':' = false from by decide]
  | cons c cs ih =>
    have hc : isWordChar c := hw c (List.mem_cons_self c cs)
    simp [List.takeWhile_cons, hc, ih fun d hd => hw d (List.mem_cons_of_mem c hd)]

/-- Claim C8, amended: a line whose first token is an identifier
immediately followed by a colon is classified as a label provided the
line does not begin with the letters `call` (case-insensitively); in
particular identifiers beginning with `end` are classified as labels,
because the label test runs before the `"^end"` directive test, but
identifiers beginning with `call` are classified as the `call` mnemonic. -/
theorem C8_label_classification (w rest : Str) (hw : w ≠ [])
    (hword : ∀ c ∈ w, isWordChar c)
    (hcall : startsWithI "call".toList (w ++ ':' :: rest) = false) :
    GetLineInfo (w ++ ':' :: rest) = { label := true } := by
  have htw := takeWhile_word_colon w rest hword
  have hdrop : (w ++ ':' :: rest).drop w.length = ':' :: rest := by
    simp [List.drop_left]
  have hproc : ∀ kw : Str, matchIdentThenKw kw (w ++ ':' :: rest) = false := by
    intro kw
    simp only [matchIdentThenKw, htw, hdrop]
    simp [List.takeWhile_cons, show isWs ':' = false from by decide]
  have hlabel : matchLabel (w ++ ':' :: rest) = true := by
    simp only [matchLabel, htw, hdrop]
    simp [hw]
  unfold GetLineInfo
  rw [hcall, hproc, hproc, hlabel]
  simp

/-- Witness for `C8_label_classification` at the identifier `endless`
(which begins with the letters `end`). -/
theorem C8_label_classification_witness :
    ("endless".toList ≠ [] ∧ (∀ c ∈ "endless".toList, isWordChar c) ∧
      startsWithI "call".toList ("endless".toList ++ ':' :: []) = false) ∧
    GetLineInfo ("endless".toList ++ ':' :: []) = { label := true } :=
  ⟨⟨by decide, by decide, by decide⟩,
    C8_label_classification "endless".toList [] (by decide) (by decide) (by decide)⟩

/-- Claim C10 (confirmed): with a positive tab width, the shortfall
`maxmissing` always satisfies `1 ≤ maxmissing ≤ tab_width`, and the
padding inserted between the code portion and the re-aligned comment
delimiter is never empty and consists of spaces or tabs only (at least
one padding character even on the longest code line). -/
theorem C10_padding_nonempty (cfg : Config) (mcw codelen : Nat) (indent : Bool)
    (htw : 0 < cfg.tab_width) :
    1 ≤ maxmissing cfg.tab_width mcw ∧ maxmissing cfg.tab_width mcw ≤ cfg.tab_width ∧
    1 ≤ (alignPad cfg mcw codelen indent).length ∧
    ∀ c ∈ alignPad cfg mcw codelen indent, c = ' ' ∨ c = '\t' := by
  have hmod : mcw % cfg.tab_width < cfg.tab_width := Nat.mod_lt _ htw
  have hmm1 : 1 ≤ maxmissing cfg.tab_width mcw := by
    unfold maxmissing; omega
  have hmm2 : maxmissing cfg.tab_width mcw ≤ cfg.tab_width := by
    unfold maxmissing; omega
  refine ⟨hmm1, hmm2, ?_, ?_⟩
  · unfold alignPad
    have hdiff : 1 ≤ mcw - codelen + maxmissing cfg.tab_width mcw := by omega
    by_cases hsp : cfg.spaces
    · simp only [hsp, if_pos]
      cases indent <;> simp <;> omega
    · simp only [hsp, if_neg, Bool.false_eq_true, if_false]
      set diff := mcw - codelen + maxmissing cfg.tab_width mcw with hdiffdef
      by_cases hrem : diff % cfg.tab_width = 0
      · have hdvd : cfg.tab_width ≤ diff := by
          rcases Nat.eq_zero_or_pos diff with h0 | hpos
          · omega
          · exact Nat.le_of_dvd hpos (Nat.dvd_of_mod_eq_zero hrem)
        have hdiv : 1 ≤ diff / cfg.tab_width := (Nat.one_le_div_iff htw).mpr hdvd
        cases indent <;> simp [hrem] <;> omega
      · cases indent <;> simp [hrem]
  · intro c hc
    unfold alignPad at hc
    split at hc
    · exact Or.inl (List.eq_of_mem_replicate hc)
    · exact Or.inr (List.eq_of_mem_replicate hc)

/-- Supporting lemma: the detected line-break style is always LF or CRLF. -/
theorem GetLineBreak_cases (s : Str) :
    GetLineBreak s = .LF ∨ GetLineBreak s = .CRLF := by
  simp only [GetLineBreak]
  split <;> simp

/-- Claim C2, amended: a formatting run reports an error exactly when the
unsupported CR line-break style is requested AND the detected style is
CRLF (a CR request on an LF-detected input makes `preserve` true and is
silently ignored); `MalformedInput` is never reported for an in-memory
buffer; and on the reported CR failure the formatted result is still
committed to the buffer rather than the original being restored (see
`C2_counterexample`). -/
theorem C2_error_reporting (cfg : Config) (input : Str) :
    ((FormatFileW cfg input).2 = some FmtError.NotImplemented ↔
      (cfg.line_break = .CR ∧ GetLineBreak input = .CRLF)) ∧
    (FormatFileW cfg input).2 ≠ some FmtError.ParseFailure := by
  rcases GetLineBreak_cases input with h | h <;>
    rcases hlb : cfg.line_break <;>
      simp [FormatFileW, FormatFileWFrom, h, hlb]

/-- Witness for `C10_padding_nonempty` at the tabs configuration with
code width 10 and line width 3. -/
theorem C10_padding_nonempty_witness :
    0 < cfgTabs.tab_width ∧
    (1 ≤ maxmissing cfgTabs.tab_width 10 ∧ maxmissing cfgTabs.tab_width 10 ≤ cfgTabs.tab_width ∧
      1 ≤ (alignPad cfgTabs 10 3 true).length ∧
      ∀ c ∈ alignPad cfgTabs 10 3 true, c = ' ' ∨ c = '\t') :=
  ⟨by decide, C10_padding_nonempty cfgTabs 10 3 true (by decide)⟩

theorem find_range_least (p : Nat → Bool) (n k : Nat) (hk : k < n) (hpk : p k = true)
    (hmin : ∀ j, j < k → p j = false) : (List.range n).find? p = some k := by
  induction n generalizing p k with
  | zero => omega
  | succ m ih =>
    rw [List.range_succ_eq_map, List.find?_cons]
    cases k with
    | zero => simp [hpk]
    | succ k' =>
      have h0 : p 0 = false := hmin 0 (Nat.succ_pos k')
      simp only [h0]
      rw [List.find?_map]
      have hrec := ih (p ∘ Nat.succ) k' (by omega) hpk (fun j hj => hmin (j + 1) (by omega))
      rw [hrec]
      rfl

theorem dropWhile_append_left (p : α → Bool) (l₁ l₂ : List α) (h : l₁.dropWhile p ≠ []) :
    (l₁ ++ l₂).dropWhile p = l₁.dropWhile p ++ l₂ := by
  rw [List.dropWhile_append]
  simp [List.isEmpty_iff, h]

theorem dropWhile_append_right (p : α → Bool) (l₁ l₂ : List α) (h : ∀ c ∈ l₁, p c = true) :
    (l₁ ++ l₂).dropWhile p = l₂.dropWhile p := by
  rw [List.dropWhile_append]
  simp [List.isEmpty_iff, List.dropWhile_eq_nil_iff.mpr]
  intro x hx hpx
  exact absurd (h x hx) (by simp [hpx])

theorem getlines_append_line (l rest : Str) (hl : '\n' ∉ l) :
    getlines (l ++ '\n' :: rest) = l :: getlines rest := by
  induction l with
  | nil => simp [getlines]
  | cons c cs ih =>
    have hc : c ≠ '\n' := fun h => hl (h ▸ List.mem_cons_self c cs)
    have ih2 := ih fun h => hl (List.mem_cons_of_mem c h)
    simp only [List.cons_append, getlines, if_neg hc, List.append_eq, ih2]

theorem splitLines_append_line (l rest : Str) (hl : '\n' ∉ l) :
    splitLines (l ++ '\n' :: rest) = l :: splitLines rest := by
  induction l with
  | nil => simp [splitLines]
  | cons c cs ih =>
    have hc : c ≠ '\n' := fun h => hl (h ▸ List.mem_cons_self c cs)
    have ih2 := ih fun h => hl (List.mem_cons_of_mem c h)
    simp only [List.cons_append, splitLines, if_neg hc, List.append_eq, ih2]

theorem getlines_joinBr_lf (ls : List Str) (h : ∀ l ∈ ls, '\n' ∉ l) :
    getlines (joinBr ['\n'] ls) = ls := by
  induction ls with
  | nil => simp [joinBr, getlines]
  | cons l ls ih =>
    have h1 : '\n' ∉ l := h l (List.mem_cons_self l ls)
    have : joinBr ['\n'] (l :: ls) = l ++ '\n' :: joinBr ['\n'] ls := by
      simp [joinBr]
    rw [this, getlines_append_line _ _ h1, ih fun x hx => h x (List.mem_cons_of_mem l hx)]

theorem getlines_joinBr_crlf (ls : List Str) (h : ∀ l ∈ ls, '\n' ∉ l) :
    getlines (joinBr ['\r', '\n'] ls) = ls.map (fun l => l ++ ['\r']) := by
  induction ls with
  | nil => simp [joinBr, getlines]
  | cons l ls ih =>
    have h1 : '\n' ∉ l ++ ['\r'] := by
      intro hmem
      rcases List.mem_append.mp hmem with hmem | hmem
      · exact h l (List.mem_cons_self l ls) hmem
      · simp at hmem
    have : joinBr ['\r', '\n'] (l :: ls) = (l ++ ['\r']) ++ '\n' :: joinBr ['\r', '\n'] ls := by
      simp [joinBr]
    rw [this, getlines_append_line _ _ h1, ih fun x hx => h x (List.mem_cons_of_mem l hx)]
    simp

theorem splitLines_joinBr_lf (ls : List Str) (h : ∀ l ∈ ls, '\n' ∉ l) :
    splitLines (joinBr ['\n'] ls) = ls ++ [[]] := by
  induction ls with
  | nil => simp [joinBr, splitLines]
  | cons l ls ih =>
    have h1 : '\n' ∉ l := h l (List.mem_cons_self l ls)
    have : joinBr ['\n'] (l :: ls) = l ++ '\n' :: joinBr ['\n'] ls := by
      simp [joinBr]
    rw [this, splitLines_append_line _ _ h1, ih fun x hx => h x (List.mem_cons_of_mem l hx)]
    simp

theorem splitLines_joinBr_crlf (ls : List Str) (h : ∀ l ∈ ls, '\n' ∉ l) :
    splitLines (joinBr ['\r', '\n'] ls) = ls.map (fun l => l ++ ['\r']) ++ [[]] := by
  induction ls with
  | nil => simp [joinBr, splitLines]
  | cons l ls ih =>
    have h1 : '\n' ∉ l ++ ['\r'] := by
      intro hmem
      rcases List.mem_append.mp hmem with hmem | hmem
      · exact h l (List.mem_cons_self l ls) hmem
      · simp at hmem
    have : joinBr ['\r', '\n'] (l :: ls) = (l ++ ['\r']) ++ '\n' :: joinBr ['\r', '\n'] ls := by
      simp [joinBr]
    rw [this, splitLines_append_line _ _ h1, ih fun x hx => h x (List.mem_cons_of_mem l hx)]
    simp

theorem trimTrailing_append_cr (y : Str) : trimTrailing (y ++ ['\r']) = trimTrailing y := by
  simp [trimTrailing, List.dropWhile_cons, show isWs '\r' = true from by decide]

theorem trimLine_append_cr (l : Str) : trimLine (l ++ ['\r']) = trimLine l := by
  unfold trimLine
  by_cases h : l.dropWhile isWs = []
  · rw [dropWhile_append_right _ _ _ (List.dropWhile_eq_nil_iff.mp h), h]
    simp [trimTrailing, List.dropWhile_cons, show isWs '\r' = true from by decide]
  · rw [dropWhile_append_left _ _ _ h, trimTrailing_append_cr]

theorem mem_trimTrailing (c : Char) (l : Str) (h : c ∈ trimTrailing l) : c ∈ l := by
  unfold trimTrailing at h
  exact List.mem_reverse.mp ((List.dropWhile_sublist isWs).mem (List.mem_reverse.mp h))

theorem mem_trimLine (c : Char) (l : Str) (h : c ∈ trimLine l) : c ∈ l := by
  unfold trimLine at h
  exact (List.dropWhile_sublist isWs).mem (mem_trimTrailing c _ h)

theorem codeLenOfLine_none (t : Str) (h : ';' ∉ t) : codeLenOfLine t = none := by
  unfold codeLenOfLine
  rw [List.find?_eq_none]
  intro k _ hk
  simp only [Bool.and_eq_true, decide_eq_true_eq] at hk
  have hla : lookaheadSemi t k = true := hk.1
  unfold lookaheadSemi at hla
  simp only [decide_eq_true_eq] at hla
  have hmem : ';' ∈ (t.drop k).dropWhile isWs := List.mem_of_mem_head? (by rw [hla]; rfl)
  exact h ((List.drop_sublist k t).mem ((List.dropWhile_sublist isWs).mem hmem))

theorem dropWhile_head_false (p : α → Bool) (l : List α) (a : α) (rest : List α)
    (h : l.dropWhile p = a :: rest) : p a = false := by
  induction l with
  | nil => simp [List.dropWhile] at h
  | cons c cs ih =>
    by_cases hc : p c
    · exact ih (by rw [List.dropWhile_cons, if_pos hc] at h; exact h)
    · rw [List.dropWhile_cons, if_neg hc] at h
      obtain ⟨rfl, -⟩ := List.cons.inj h
      exact Bool.eq_false_iff.mpr hc

theorem codeLenOfLine_eq (t : Str) (hcr : '\r' ∉ t) (hsemi : ';' ∈ t) :
    codeLenOfLine t = some (trimTrailing (t.takeWhile fun c => c ≠ ';')).length := by
  have hD : t.dropWhile (fun c => decide (c ≠ ';')) ≠ [] := by
    intro h0
    have := List.dropWhile_eq_nil_iff.mp h0 ';' hsemi
    simp at this
  obtain ⟨d, B, hDB⟩ : ∃ d B, t.dropWhile (fun c => decide (c ≠ ';')) = d :: B := by
    rcases h : t.dropWhile (fun c => decide (c ≠ ';')) with _ | ⟨d, B⟩
    · exact absurd h hD
    · exact ⟨d, B, rfl⟩
  have hd : d = ';' := by
    have h1 := dropWhile_head_false (fun c => decide (c ≠ ';')) t d B hDB
    simpa using h1
  set A := t.takeWhile (fun c => decide (c ≠ ';')) with hAdef
  have hsplit : t = A ++ ';' :: B := by
    conv_lhs => rw [← List.takeWhile_append_dropWhile (fun c => decide (c ≠ ';')) t]
    rw [hDB, hd]
  have hAs : ∀ c ∈ A, c ≠ ';' := fun c hc => by
    have := List.mem_takeWhile_imp hc
    simpa using this
  set P := trimTrailing A with hPdef
  set W := (A.reverse.takeWhile isWs).reverse with hWdef
  have hPW : A = P ++ W := by
    have : A.reverse = A.reverse.takeWhile isWs ++ A.reverse.dropWhile isWs :=
      (List.takeWhile_append_dropWhile isWs A.reverse).symm
    calc A = A.reverse.reverse := (List.reverse_reverse A).symm
    _ = (A.reverse.takeWhile isWs ++ A.reverse.dropWhile isWs).reverse := by rw [← this]
    _ = P ++ W := by
        rw [List.reverse_append]
        rfl
  have hW : ∀ c ∈ W, isWs c = true := fun c hc =>
    List.mem_takeWhile_imp (List.mem_reverse.mp hc)
  have htfull : t = P ++ (W ++ ';' :: B) := by
    rw [hsplit, hPW, List.append_assoc]
  have hlenP : P.length ≤ t.length := by
    have h1 : A.length ≤ t.length := (List.takeWhile_sublist _).length_le
    have h2 : P.length ≤ A.length := by
      rw [hPW]; simp
    omega
  have hnc : ∀ k, ((t.take k).contains '\r') = false := by
    intro k
    have hmem : '\r' ∉ t.take k := fun hm => hcr ((List.take_sublist k t).mem hm)
    rw [Bool.eq_false_iff]
    intro hco
    exact hmem (by simpa using hco)
  unfold codeLenOfLine
  apply find_range_least
  · omega
  · -- the candidate position satisfies the lookahead
    have hdrop : t.drop P.length = W ++ ';' :: B := by
      conv_lhs => rw [htfull]
      exact List.drop_left P (W ++ ';' :: B)
    have : lookaheadSemi t P.length = true := by
      unfold lookaheadSemi
      rw [hdrop, dropWhile_append_right _ _ _ hW]
      simp [List.dropWhile_cons, show isWs ';' = false from by decide]
    simp [this]
    intro hm
    exact hcr ((List.take_sublist _ t).mem hm)
  · -- no earlier position satisfies it
    intro j hj
    have hdropj : t.drop j = P.drop j ++ (W ++ ';' :: B) := by
      conv_lhs => rw [htfull]
      exact List.drop_append_of_le_length (by omega)
    have hne : P.drop j ≠ [] := by
      have : (P.drop j).length = P.length - j := List.length_drop j P
      intro h0
      rw [h0] at this
      simp at this
      omega
    have hnds : (P.drop j).dropWhile isWs ≠ [] := by
      intro h0
      have hall := List.dropWhile_eq_nil_iff.mp h0
      -- the last element of P is not whitespace, yet it lies in the drop
      have hgl : (P.drop j).getLast? = P.getLast? := by
        rw [List.getLast?_drop]
        simp only [if_neg (by omega : ¬ P.length ≤ j)]
      have hRP : A.reverse.dropWhile isWs ≠ [] := by
        intro h1
        have : P = [] := by
          rw [hPdef]
          unfold trimTrailing
          rw [h1]
          rfl
        rw [this] at hj
        simp at hj
      have hheadP : P.getLast? = some ((A.reverse.dropWhile isWs).head hRP) := by
        rw [hPdef]
        unfold trimTrailing
        rw [List.getLast?_reverse]
        exact List.head?_eq_head hRP
      have hws : isWs ((A.reverse.dropWhile isWs).head hRP) = false :=
        List.head_dropWhile_not isWs A.reverse hRP
      have hlast_mem : (P.drop j).getLast hne ∈ P.drop j := List.getLast_mem hne
      have : isWs ((P.drop j).getLast hne) = true := hall _ hlast_mem
      rw [show (P.drop j).getLast hne = (A.reverse.dropWhile isWs).head hRP by
        have := List.getLast?_eq_getLast (P.drop j) hne
        rw [hgl, hheadP] at this
        exact Option.some.inj this.symm] at this
      rw [hws] at this
      exact Bool.false_ne_true this
    have hlk : lookaheadSemi t j = false := by
      unfold lookaheadSemi
      rw [hdropj, dropWhile_append_left _ _ _ hnds]
      obtain ⟨a, rest, har⟩ : ∃ a rest, (P.drop j).dropWhile isWs = a :: rest := by
        rcases h : (P.drop j).dropWhile isWs with _ | ⟨a, rest⟩
        · exact absurd h hnds
        · exact ⟨a, rest, rfl⟩
      rw [har]
      have ha : a ∈ A := by
        apply mem_trimTrailing
        exact (List.drop_sublist j P).mem ((List.dropWhile_sublist isWs).mem (by rw [har]; simp))
      have : a ≠ ';' := hAs a ha
      simp [this]
    simp [hlk]

theorem maxCodeStep_eq_spec (m : Nat) (l : Str) (hcr : '\r' ∉ l) :
    maxCodeStep m (trimLine l) = max m ((specInlineCodeWidth l).getD 0) := by
  have hcrt : '\r' ∉ trimLine l := fun h => hcr (mem_trimLine _ _ h)
  unfold maxCodeStep specInlineCodeWidth
  by_cases hh : (trimLine l).head? = some ';'
  · simp [hh]
  · by_cases hc : ';' ∈ trimLine l
    · rw [codeLenOfLine_eq (trimLine l) hcrt hc]
      simp [hh, hc]
      split <;> omega
    · rw [codeLenOfLine_none (trimLine l) hc]
      simp [hh, hc]

theorem foldl_maxCodeStep (m : Nat) (ls : List Str) (h : ∀ l ∈ ls, '\r' ∉ l) :
    (ls.map trimLine).foldl maxCodeStep m =
      max m ((ls.filterMap specInlineCodeWidth).foldr max 0) := by
  induction ls generalizing m with
  | nil => simp
  | cons l ls ih =>
    simp only [List.map_cons, List.foldl_cons, List.filterMap_cons]
    rw [maxCodeStep_eq_spec m l (h l (List.mem_cons_self l ls)),
      ih _ fun x hx => h x (List.mem_cons_of_mem l hx)]
    rcases hspec : specInlineCodeWidth l with _ | v
    · simp
    · simp only [List.foldr_cons, Option.getD_some]
      rw [Nat.max_assoc]

theorem mem_of_getLast?_eq {l : List α} {a : α} (h : l.getLast? = some a) : a ∈ l := by
  have hne : l ≠ [] := by rintro rfl; simp at h
  rw [List.getLast?_eq_getLast l hne] at h
  exact (Option.some.inj h) ▸ List.getLast_mem hne

theorem GetLineBreak_joinBr (crlf : Bool) (lines : List Str)
    (hwf : ∀ l ∈ lines, lineWF l) (hne : crlf = true → lines ≠ []) :
    GetLineBreak (joinBr (if crlf then ['\r', '\n'] else ['\n']) lines) =
      (if crlf then .CRLF else .LF) := by
  rcases lines with _ | ⟨l0, rest⟩
  · cases crlf
    · simp [joinBr, GetLineBreak]
    · exact absurd rfl (hne rfl)
  · obtain ⟨hn0, hr0⟩ := hwf l0 (List.mem_cons_self l0 rest)
    cases crlf
    · have hj : joinBr ['\n'] (l0 :: rest) = l0 ++ '\n' :: joinBr ['\n'] rest := by
        simp [joinBr]
      have htw0 : (l0.takeWhile fun c => decide (c ≠ '\n')) = l0 :=
        List.takeWhile_eq_self_iff.mpr fun c hc => by
          simp
          exact fun h => hn0 (h ▸ hc)
      simp only [Bool.false_eq_true, if_false, hj, GetLineBreak]
      rw [List.takeWhile_append, htw0]
      simp only [List.takeWhile_cons, show (decide (('\n' : Char) ≠ '\n')) = false by decide,
        Bool.false_eq_true, if_false, List.append_nil, if_pos rfl]
      exact if_neg fun h => hr0 (mem_of_getLast?_eq h.2)
    · have hj : joinBr ['\r', '\n'] (l0 :: rest) =
          (l0 ++ ['\r']) ++ '\n' :: joinBr ['\r', '\n'] rest := by
        simp [joinBr]
      have htw0 : ((l0 ++ ['\r']).takeWhile fun c => decide (c ≠ '\n')) = l0 ++ ['\r'] :=
        List.takeWhile_eq_self_iff.mpr fun c hc => by
          simp
          rintro rfl
          rcases List.mem_append.mp hc with hc | hc
          · exact hn0 hc
          · simp at hc
      simp only [if_pos, hj, GetLineBreak]
      rw [List.takeWhile_append, htw0]
      simp only [List.takeWhile_cons, show (decide (('\n' : Char) ≠ '\n')) = false by decide,
        Bool.false_eq_true, if_false, List.append_nil, if_pos rfl]
      exact if_pos ⟨by simp, List.getLast?_concat l0⟩

/-- Claim C7, amended: for a buffer assembled from well-formed lines
(no stray carriage returns) with consistent terminators, the computed
`MaxCodeWidth` equals the maximum, over all lines that are not
comment-only and contain an inline comment delimiter, of the character
length of the content before the delimiter after leading and trailing
whitespace trimming, and 0 when no such line exists (the fold starts at
0 and `specMaxCodeWidth` of a buffer with no contributing line is 0).
The restriction to terminated lines is forced by `C7_counterexample`:
an unterminated final line is dropped by the `getline` loop and never
measured; a line whose delimiter is preceded by a stray CR is likewise
never measured because `(.*?)` cannot cross a CR. -/
theorem C7_maxcodewidth (crlf : Bool) (lines : List Str)
    (hwf : ∀ l ∈ lines, lineWF l) (hne : crlf = true → lines ≠ []) :
    computedMaxCodeWidth crlf (joinBr (if crlf then ['\r', '\n'] else ['\n']) lines) =
      specMaxCodeWidth (joinBr (if crlf then ['\r', '\n'] else ['\n']) lines) := by
  have hn : ∀ l ∈ lines, '\n' ∉ l := fun l hl => (hwf l hl).1
  have hr : ∀ l ∈ lines, '\r' ∉ l := fun l hl => (hwf l hl).2
  have hspecnil : specInlineCodeWidth [] = none := by
    simp [specInlineCodeWidth, trimLine, trimTrailing]
  cases crlf
  · simp only [Bool.false_eq_true, if_false]
    unfold computedMaxCodeWidth specMaxCodeWidth pass1lines
    rw [getlines_joinBr_lf lines hn, splitLines_joinBr_lf lines hn]
    have hmap : (lines.map fun l => trimLine (dropCR false l)) = lines.map trimLine :=
      List.map_congr_left fun l _ => by simp [dropCR]
    rw [hmap, foldl_maxCodeStep 0 lines hr, List.filterMap_append]
    simp [hspecnil]
  · simp only [if_pos]
    unfold computedMaxCodeWidth specMaxCodeWidth pass1lines
    rw [getlines_joinBr_crlf lines hn, splitLines_joinBr_crlf lines hn]
    have hmap : ((lines.map fun l => l ++ ['\r']).map fun l => trimLine (dropCR true l)) =
        lines.map trimLine := by
      rw [List.map_map]
      exact List.map_congr_left fun l _ => by
        simp [Function.comp, dropCR, List.dropLast_concat]
    have hfm : ((lines.map fun l => l ++ ['\r']).filterMap specInlineCodeWidth) =
        lines.filterMap specInlineCodeWidth := by
      rw [List.filterMap_map]
      exact List.filterMap_congr fun l _ => by
        simp [Function.comp, specInlineCodeWidth, trimLine_append_cr]
    rw [hmap, foldl_maxCodeStep 0 lines hr, List.filterMap_append, hfm]
    simp [hspecnil]


/-- Witness for `C7_maxcodewidth` on a one-line LF buffer. -/
theorem C7_maxcodewidth_witness :
    ((∀ l ∈ [("mov eax ;c".toList : Str)], lineWF l) ∧
      (false = true → [("mov eax ;c".toList : Str)] ≠ [])) ∧
    computedMaxCodeWidth false (joinBr (if false then ['\r', '\n'] else ['\n']) ["mov eax ;c".toList]) =
      specMaxCodeWidth (joinBr (if false then ['\r', '\n'] else ['\n']) ["mov eax ;c".toList]) :=
  ⟨⟨by decide, by decide⟩,
    C7_maxcodewidth false ["mov eax ;c".toList] (by decide) (by decide)⟩

theorem countLeadingRepAux_nil (u : Str) (fuel : Nat) : countLeadingRepAux u fuel [] = 0 := by
  cases fuel with
  | zero => rfl
  | succ f =>
    rw [countLeadingRepAux]
    rcases u with _ | ⟨c, cs⟩
    · simp
    · simp [List.isPrefixOf]

theorem countLeadingRepAux_fuel (u : Str) : ∀ fuel s, s.length ≤ fuel →
    countLeadingRepAux u fuel s = countLeadingRepAux u s.length s := by
  intro fuel
  induction fuel using Nat.strong_induction_on with
  | _ fuel ih =>
    intro s hs
    rcases s with _ | ⟨c, cs⟩
    · rw [countLeadingRepAux_nil, countLeadingRepAux_nil]
    · rcases fuel with _ | f
      · simp at hs
      · rw [countLeadingRepAux, show (c :: cs).length = cs.length + 1 from rfl,
          countLeadingRepAux]
        by_cases hc : u.isPrefixOf (c :: cs) ∧ u ≠ []
        · rw [if_pos hc, if_pos hc]
          have hu : 0 < u.length := List.length_pos.mpr hc.2
          have hule : u.length ≤ (c :: cs).length :=
            (List.isPrefixOf_iff_prefix.mp hc.1).length_le
          have hd : ((c :: cs).drop u.length).length = cs.length + 1 - u.length := by
            rw [List.length_drop]
            rfl
          simp only [List.length_cons] at hs hule
          rw [ih f (by omega) _ (by omega), ih cs.length (by omega) _ (by omega)]
        · rw [if_neg hc, if_neg hc]

theorem countLeadingRep_cons (u s : Str) (hu : u ≠ []) :
    countLeadingRep u (u ++ s) = countLeadingRep u s + 1 := by
  have hu1 : 0 < u.length := List.length_pos.mpr hu
  have hpre : u.isPrefixOf (u ++ s) := List.isPrefixOf_iff_prefix.mpr ⟨s, rfl⟩
  unfold countLeadingRep
  rcases hul : (u ++ s).length with _ | m
  · exfalso
    rw [List.length_append] at hul
    omega
  · rw [countLeadingRepAux, if_pos ⟨hpre, hu⟩, List.drop_left]
    have hsl : s.length ≤ m := by
      have : (u ++ s).length = u.length + s.length := List.length_append u s
      omega
    rw [countLeadingRepAux_fuel u m s hsl]

theorem countLeadingRep_not_prefixOf (u s : Str) (h : ¬ u.isPrefixOf s) :
    countLeadingRep u s = 0 := by
  rcases s with _ | ⟨c, cs⟩
  · unfold countLeadingRep
    exact countLeadingRepAux_nil u 0
  · unfold countLeadingRep
    rw [show (c :: cs).length = cs.length + 1 from rfl, countLeadingRepAux,
      if_neg fun hc => h hc.1]

theorem countLeadingRep_repStr_append (u s : Str) (k : Nat) (hu : u ≠ [])
    (h : ¬ u.isPrefixOf s) : countLeadingRep u (repStr u k ++ s) = k := by
  induction k with
  | zero =>
    rw [repStr, List.nil_append, countLeadingRep_not_prefixOf u s h]
  | succ n ih =>
    rw [repStr, List.append_assoc, countLeadingRep_cons _ _ hu, ih]

theorem countLeadingRep_decomp (u : Str) (hu : u ≠ []) : ∀ s : Str,
    ∃ rest, s = repStr u (countLeadingRep u s) ++ rest ∧ ¬ u.isPrefixOf rest := by
  have H : ∀ (n : Nat) (s : Str), s.length ≤ n →
      ∃ rest, s = repStr u (countLeadingRep u s) ++ rest ∧ ¬ u.isPrefixOf rest := by
    intro n
    induction n using Nat.strong_induction_on with
    | _ n ih =>
      intro s hs
      by_cases hp : u.isPrefixOf s
      · obtain ⟨t, ht⟩ := List.isPrefixOf_iff_prefix.mp hp
        have hu1 : 0 < u.length := List.length_pos.mpr hu
        have hn1 : 1 ≤ n := by
          have := (List.isPrefixOf_iff_prefix.mp hp).length_le
          omega
        have hlt : t.length ≤ n - 1 := by
          have : s.length = u.length + t.length := by
            rw [← ht, List.length_append]
          omega
        obtain ⟨rest, hr1, hr2⟩ := ih (n - 1) (by omega) t hlt
        refine ⟨rest, ?_, hr2⟩
        rw [← ht, show countLeadingRep u (u ++ t) = countLeadingRep u t + 1 from
          countLeadingRep_cons u t hu, repStr, List.append_assoc, ← hr1]
      · exact ⟨s, by rw [countLeadingRep_not_prefixOf u s hp, repStr, List.nil_append], hp⟩
  exact fun s => H s.length s le_rfl

theorem repStr_length (u : Str) (k : Nat) : (repStr u k).length = k * u.length := by
  induction k with
  | zero => simp [repStr]
  | succ n ih =>
    rw [repStr, List.length_append, ih]
    ring

theorem repStr_one (u : Str) : repStr u 1 = u := by
  simp [repStr]

theorem repStr_comm (u : Str) (k : Nat) : repStr u k ++ u = u ++ repStr u k := by
  induction k with
  | zero => simp [repStr]
  | succ n ih =>
    rw [repStr, List.append_assoc, ih]

theorem repStr_reverse (u : Str) (k : Nat) : (repStr u k).reverse = repStr u.reverse k := by
  induction k with
  | zero => simp [repStr]
  | succ n ih =>
    rw [repStr, List.reverse_append, ih, repStr, ← repStr_comm]

theorem drop_repStr (u rest : Str) (k : Nat) :
    (repStr u k ++ rest).drop (k * u.length) = rest := by
  rw [show k * u.length = (repStr u k).length from (repStr_length u k).symm, List.drop_left]

theorem collapseLeading_ensure_pair (br s : Str) (hbr : br ≠ []) :
    ∃ R, ¬ br.isPrefixOf R ∧
      collapseLeadingBreaks br (if br.isPrefixOf s then s else br ++ s) = br ++ R ∧
      collapseLeadingBreaks br (br ++ s) = br ++ R := by
  obtain ⟨rest, hdec, hnp⟩ := countLeadingRep_decomp br hbr s
  set k := countLeadingRep br s with hkdef
  refine ⟨rest, hnp, ?_, ?_⟩
  · by_cases hp : br.isPrefixOf s
    · rw [if_pos hp]
      have hk1 : 1 ≤ k := by
        by_contra hk
        have hk0 : k = 0 := by omega
        rw [hk0, repStr, List.nil_append] at hdec
        exact hnp (hdec ▸ hp)
      unfold collapseLeadingBreaks
      rw [← hkdef]
      by_cases hk2 : 2 ≤ k
      · rw [if_pos hk2]
        congr 1
        rw [hdec]
        exact drop_repStr br rest k
      · rw [if_neg hk2]
        have hk' : k = 1 := by omega
        rw [hdec, hk', repStr_one]
    · rw [if_neg hp]
      have hk0 : k = 0 := countLeadingRep_not_prefixOf br s hp
      rw [hk0, repStr, List.nil_append] at hdec
      unfold collapseLeadingBreaks
      rw [countLeadingRep_cons br s hbr, ← hkdef, hk0]
      simp only [Nat.zero_add, show ¬ (2 ≤ 1) by omega, if_false]
      rw [hdec]
  · unfold collapseLeadingBreaks
    rw [countLeadingRep_cons br s hbr, ← hkdef]
    by_cases hk1 : 1 ≤ k
    · rw [if_pos (by omega)]
      congr 1
      rw [hdec, show br ++ (repStr br k ++ rest) = repStr br (k + 1) ++ rest by
        rw [repStr, List.append_assoc]]
      exact drop_repStr br rest (k + 1)
    · have hk0 : k = 0 := by omega
      rw [hk0, repStr, List.nil_append] at hdec
      rw [hk0, if_neg (by omega), hdec]

theorem removeEndp_single (br R : Str) (hbr : br ≠ []) (hnp : ¬ br.isPrefixOf R) :
    removeEndpLeadingBreaks br (br ++ R) =
      (if endpLookahead R then R else br ++ R) := by
  rcases Bool.eq_false_or_eq_true (endpLookahead R) with hl | hl
  swap
  · have hmain : removeEndpLeadingBreaks br (br ++ R) = br ++ R := by
      unfold removeEndpLeadingBreaks
      rw [countLeadingRep_cons br R hbr, countLeadingRep_not_prefixOf br R hnp, if_neg]
      rintro ⟨-, hlk⟩
      rw [Nat.zero_add, Nat.one_mul, List.drop_left, hl] at hlk
      exact Bool.false_ne_true hlk
    rw [hmain, if_neg]
    rw [hl]
    exact Bool.false_ne_true
  · have hmain : removeEndpLeadingBreaks br (br ++ R) = R := by
      unfold removeEndpLeadingBreaks
      rw [countLeadingRep_cons br R hbr, countLeadingRep_not_prefixOf br R hnp, if_pos
        ⟨by omega, by rw [Nat.zero_add, Nat.one_mul, List.drop_left]; exact hl⟩]
      rw [Nat.zero_add, Nat.one_mul, List.drop_left]
    rw [hmain, if_pos hl]

theorem collapseTrailing_cases (br s : Str) (hbr : br ≠ []) :
    collapseTrailingBreaks br s = s ∨
    ∃ Y m, 2 ≤ m ∧ s = Y ++ repStr br m ∧ collapseTrailingBreaks br s = Y ++ br := by
  unfold collapseTrailingBreaks
  by_cases hm : 2 ≤ countLeadingRep br.reverse s.reverse
  · right
    obtain ⟨rest, hdec, hnp⟩ := countLeadingRep_decomp br.reverse (by simp [hbr]) s.reverse
    set m := countLeadingRep br.reverse s.reverse with hmdef
    refine ⟨rest.reverse, m, hm, ?_, ?_⟩
    · have : s = (repStr br.reverse m ++ rest).reverse := by
        rw [← hdec, List.reverse_reverse]
      rw [this, List.reverse_append, repStr_reverse, List.reverse_reverse]
    · rw [if_pos hm]
      congr 1
      rw [hdec, show m * br.length = (repStr br.reverse m).length by
        rw [repStr_length, List.length_reverse], List.drop_left]
  · left
    rw [if_neg hm]

theorem prefixOf_append_of_le (br Y A : Str) (hle : br.length ≤ Y.length) :
    br.isPrefixOf (Y ++ A) = br.isPrefixOf Y := by
  rcases h : br.isPrefixOf Y with _ | _
  · rw [Bool.eq_false_iff]
    intro hcon
    have h1 := List.prefix_iff_eq_take.mp (List.isPrefixOf_iff_prefix.mp hcon)
    rw [List.take_append_of_le_length hle] at h1
    have : br.isPrefixOf Y = true :=
      List.isPrefixOf_iff_prefix.mpr (List.prefix_iff_eq_take.mpr h1)
    rw [h] at this
    exact Bool.false_ne_true this
  · have h1 := List.prefix_iff_eq_take.mp (List.isPrefixOf_iff_prefix.mp h)
    rw [← List.take_append_of_le_length hle] at h1
    exact List.isPrefixOf_iff_prefix.mpr (List.prefix_iff_eq_take.mpr h1)

theorem startsWithI_append_indep (p : Str) : ∀ (a T₁ T₂ : Str),
    (T₁ = [] ↔ T₂ = []) →
    (∀ c ∈ T₁, ∀ pc ∈ p, eqI pc c = false) →
    (∀ c ∈ T₂, ∀ pc ∈ p, eqI pc c = false) →
    startsWithI p (a ++ T₁) = startsWithI p (a ++ T₂) := by
  induction p with
  | nil => intro a T₁ T₂ _ _ _; rfl
  | cons pc ps ih =>
    intro a T₁ T₂ hiff h1 h2
    rcases a with _ | ⟨x, a'⟩
    · simp only [List.nil_append]
      rcases T₁ with _ | ⟨c₁, t₁⟩
      · rw [hiff.mp rfl]
      · obtain ⟨c₂, t₂, rfl⟩ : ∃ c₂ t₂, T₂ = c₂ :: t₂ := by
          rcases T₂ with _ | ⟨c₂, t₂⟩
          · exact absurd (hiff.mpr rfl) (by simp)
          · exact ⟨c₂, t₂, rfl⟩
        rw [startsWithI, startsWithI,
          h1 c₁ (List.mem_cons_self _ _) pc (List.mem_cons_self _ _),
          h2 c₂ (List.mem_cons_self _ _) pc (List.mem_cons_self _ _)]
        rfl
    · rw [List.cons_append, List.cons_append, startsWithI, startsWithI,
        ih a' T₁ T₂ hiff
          (fun c hc qc hqc => h1 c hc qc (List.mem_cons_of_mem pc hqc))
          (fun c hc qc hqc => h2 c hc qc (List.mem_cons_of_mem pc hqc))]

theorem endpLookahead_append_indep (X T₁ T₂ : Str)
    (h1 : lookaheadInert T₁) (h2 : lookaheadInert T₂) :
    endpLookahead (X ++ T₁) = endpLookahead (X ++ T₂) := by
  have htwnil : ∀ (T : Str), lookaheadInert T → T.takeWhile isWordChar = [] := by
    rintro T ⟨hne, -, hwd, -⟩
    rcases T with _ | ⟨c, t⟩
    · rfl
    · rw [List.takeWhile_cons, hwd c (List.mem_cons_self _ _)]
      rfl
  have htwself : ∀ (T : Str), lookaheadInert T → T.takeWhile isWs = T := by
    rintro T ⟨-, hws, -, -⟩
    exact List.takeWhile_eq_self_iff.mpr hws
  have hswnil : ∀ (T : Str), lookaheadInert T →
      startsWithI "endp".toList ([] : Str) = false := by
    intro T hT
    rfl
  by_cases hx : (X.takeWhile isWordChar).length = X.length
  · have hfalse : ∀ (T : Str), lookaheadInert T → endpLookahead (X ++ T) = false := by
      intro T hT
      have hXw : X.takeWhile isWordChar = X :=
        List.Sublist.eq_of_length (List.takeWhile_sublist _) hx
      unfold endpLookahead matchIdentThenKw
      simp only []
      rw [List.takeWhile_append, if_pos hx, htwnil T hT, List.append_nil,
        List.drop_left, htwself T hT, List.drop_length,
        show startsWithI "endp".toList ([] : Str) = false from rfl]
      simp
    rw [hfalse T₁ h1, hfalse T₂ h2]
  · have hwlt : (X.takeWhile isWordChar).length ≤ X.length :=
      (List.takeWhile_sublist _).length_le
    set Xr := X.drop (X.takeWhile isWordChar).length with hXrdef
    have hXrne : Xr ≠ [] := by
      intro h0
      have := congrArg List.length h0
      rw [hXrdef, List.length_drop] at this
      simp at this
      omega
    by_cases hx2 : (Xr.takeWhile isWs).length = Xr.length
    · have hXrw : Xr.takeWhile isWs = Xr :=
        List.Sublist.eq_of_length (List.takeWhile_sublist _) hx2
      have hfalse : ∀ (T : Str), lookaheadInert T → endpLookahead (X ++ T) = false := by
        intro T hT
        unfold endpLookahead matchIdentThenKw
        simp only []
        rw [List.takeWhile_append, if_neg hx, List.drop_append_of_le_length hwlt, ← hXrdef,
          List.takeWhile_append, if_pos hx2, htwself T hT, List.drop_length,
          show startsWithI "endp".toList ([] : Str) = false from rfl]
        simp
      rw [hfalse T₁ h1, hfalse T₂ h2]
    · have hslt : (Xr.takeWhile isWs).length ≤ Xr.length :=
        (List.takeWhile_sublist _).length_le
      have hval : ∀ (T : Str), lookaheadInert T →
          endpLookahead (X ++ T) =
            (!(X.takeWhile isWordChar).isEmpty && !(Xr.takeWhile isWs).isEmpty &&
              startsWithI "endp".toList (Xr.drop (Xr.takeWhile isWs).length ++ T)) := by
        intro T hT
        unfold endpLookahead matchIdentThenKw
        simp only []
        rw [List.takeWhile_append, if_neg hx, List.drop_append_of_le_length hwlt, ← hXrdef,
          List.takeWhile_append, if_neg hx2, List.drop_append_of_le_length hslt]
      rw [hval T₁ h1, hval T₂ h2,
        startsWithI_append_indep "endp".toList (Xr.drop (Xr.takeWhile isWs).length) T₁ T₂
          (by constructor
              · intro h; exact absurd h h1.1
              · intro h; exact absurd h h2.1)
          h1.2.2.2 h2.2.2.2]

theorem mem_repStr (u : Str) (k : Nat) (c : Char) (h : c ∈ repStr u k) : c ∈ u := by
  induction k with
  | zero => simp [repStr] at h
  | succ n ih =>
    rw [repStr] at h
    rcases List.mem_append.mp h with h | h
    · exact h
    · exact ih h

theorem lookaheadInert_br (br : Str) (hbr : br = ['\n'] ∨ br = ['\r', '\n']) :
    lookaheadInert br := by
  rcases hbr with rfl | rfl
  · exact ⟨by decide, by decide, by decide, by decide⟩
  · exact ⟨by decide, by decide, by decide, by decide⟩

theorem lookaheadInert_repStr (br : Str) (m : Nat)
    (hbr : br = ['\n'] ∨ br = ['\r', '\n']) (hm : 1 ≤ m) :
    lookaheadInert (repStr br m) := by
  have hib := lookaheadInert_br br hbr
  refine ⟨?_, ?_, ?_, ?_⟩
  · intro h0
    have hlen := congrArg List.length h0
    rw [repStr_length] at hlen
    have hbl : 0 < br.length := by rcases hbr with rfl | rfl <;> simp
    have hpos : 0 < m * br.length := Nat.mul_pos hm hbl
    simp only [List.length_nil] at hlen
    omega
  · exact fun c hc => hib.2.1 c (mem_repStr br m c hc)
  · exact fun c hc => hib.2.2.1 c (mem_repStr br m c hc)
  · exact fun c hc => hib.2.2.2 c (mem_repStr br m c hc)

/-- Claim C6, amended: the blank-line removal before `endp` lines is
anchored to the start of the buffer.  Interior blank lines before a
`ProcEnd` line are NOT removed (`C6_counterexample`); what does hold is
that the normalized result (before the final line-break substitution,
which only rewrites terminators) never begins with a blank line that is
immediately followed by text matching the `endp` lookahead: a leading
blank is removed exactly when the `^(br)+(?=\w+\s+endp)` regex fires
at position 0, and the trailing-blank collapse cannot reintroduce such
a configuration. -/
theorem C6_endp_blank_removal (cfg : Config) (br s : Str)
    (hbr : br = ['\n'] ∨ br = ['\r', '\n']) :
    ¬ (br.isPrefixOf (normalizeResult cfg br s) ∧
       endpLookahead ((normalizeResult cfg br s).drop br.length) = true) := by
  have hbrne : br ≠ [] := by rcases hbr with rfl | rfl <;> simp
  unfold normalizeResult
  simp only []
  rw [ite_self]
  obtain ⟨R, hnpR, hc1, -⟩ := collapseLeading_ensure_pair br s hbrne
  rw [hc1, removeEndp_single br R hbrne hnpR]
  rcases Bool.eq_false_or_eq_true (endpLookahead R) with hl | hl
  · -- the removal fired: the buffer starts with the endp line itself
    rw [if_pos hl]
    rcases collapseTrailing_cases br R hbrne with hct | ⟨Y, m, hm2, hRdec, hct⟩
    · rw [hct]
      rintro ⟨hp, -⟩
      exact hnpR hp
    · rw [hct]
      by_cases hY : br.length ≤ Y.length
      · rintro ⟨hp, -⟩
        rw [prefixOf_append_of_le br Y br hY] at hp
        rw [hRdec, prefixOf_append_of_le br Y _ hY] at hnpR
        exact hnpR hp
      · rcases hbr with rfl | rfl
        · have hY0 : Y = [] := by
            rcases Y with _ | ⟨c, t⟩
            · rfl
            · exfalso
              simp at hY
          rw [hY0]
          rintro ⟨-, hlk⟩
          revert hlk
          decide
        · rcases Y with _ | ⟨c, Y'⟩
          · rintro ⟨-, hlk⟩
            revert hlk
            decide
          · have hY'0 : Y' = [] := by
              simp only [List.length_cons, List.length_nil] at hY
              apply List.length_eq_zero.mp
              omega
            rw [hY'0]
            rintro ⟨hp, -⟩
            simp [List.isPrefixOf] at hp
  · -- the removal did not fire: the leading blank stays but the rest
    -- does not match the endp lookahead
    rw [if_neg (by rw [hl]; exact Bool.false_ne_true)]
    rcases collapseTrailing_cases br (br ++ R) hbrne with hct | ⟨Y, m, hm2, hdec, hct⟩
    · rw [hct]
      rintro ⟨-, hlk⟩
      rw [List.drop_left, hl] at hlk
      exact Bool.false_ne_true hlk
    · rw [hct]
      by_cases hY : br.length ≤ Y.length
      · rintro ⟨-, hlk⟩
        rw [List.drop_append_of_le_length hY] at hlk
        have hR : R = Y.drop br.length ++ repStr br m := by
          have hh := congrArg (List.drop br.length) hdec
          rw [List.drop_left, List.drop_append_of_le_length hY] at hh
          exact hh
        rw [endpLookahead_append_indep (Y.drop br.length) br (repStr br m)
          (lookaheadInert_br br hbr) (lookaheadInert_repStr br m hbr (by omega)),
          ← hR, hl] at hlk
        exact Bool.false_ne_true hlk
      · rcases hbr with rfl | rfl
        · have hY0 : Y = [] := by
            rcases Y with _ | ⟨c, t⟩
            · rfl
            · exfalso
              simp at hY
          rw [hY0]
          rintro ⟨-, hlk⟩
          revert hlk
          decide
        · rcases Y with _ | ⟨c, Y'⟩
          · rintro ⟨-, hlk⟩
            revert hlk
            decide
          · have hY'0 : Y' = [] := by
              simp only [List.length_cons, List.length_nil] at hY
              apply List.length_eq_zero.mp
              omega
            rw [hY'0] at hdec
            exfalso
            rcases m with _ | m1
            · omega
            rcases m1 with _ | m2
            · omega
            rw [repStr, repStr] at hdec
            simp at hdec


/-- Witness for `C6_endp_blank_removal` on an LF buffer whose blank run
at the top is followed by an endp line. -/
theorem C6_endp_blank_removal_witness :
    ((['\n'] : Str) = ['\n'] ∨ (['\n'] : Str) = ['\r', '\n']) ∧
    ¬ (List.isPrefixOf (['\n'] : Str)
        (normalizeResult cfgTabs ['\n'] "\n\nfoo endp\n".toList) ∧
       endpLookahead ((normalizeResult cfgTabs ['\n'] "\n\nfoo endp\n".toList).drop
         (['\n'] : Str).length) = true) :=
  ⟨Or.inl rfl, C6_endp_blank_removal cfgTabs ['\n'] "\n\nfoo endp\n".toList (Or.inl rfl)⟩

theorem pass2_insert_false (cfg : Config) (br : Str) (mcw : Nat) :
    ∀ (ls : List Str) (skip : Nat) (prev : PrevLine),
      (pass2 cfg br mcw prev false skip ls).2.2 = false := by
  intro ls
  induction ls with
  | nil =>
    intro skip prev
    rcases skip with _ | n <;> rfl
  | cons l ls ih =>
    intro skip prev
    rcases skip with _ | n
    · rw [pass2]
      by_cases hb : l.isEmpty
      · simp only [hb, if_pos]
        simp [ih]
      · by_cases hc : l.head? = some ';'
        · simp only [hb, hc, if_false, if_pos]
          simp [ih, hb]
        · simp only [hb, hc]
          simp [ih, hb, hc]
    · rw [pass2]
      exact ih n prev

theorem pass2_blank_agnostic (cfg : Config) (br : Str) (mcw : Nat) :
    ∀ (ls : List Str) (skip : Nat) (insertB : Bool) (c₁ c₂ : Bool),
      (pass2 cfg br mcw ⟨true, c₁⟩ insertB skip ls).1 =
      (pass2 cfg br mcw ⟨true, c₂⟩ insertB skip ls).1 := by
  intro ls
  induction ls with
  | nil =>
    intro skip insertB c₁ c₂
    rcases skip with _ | n <;> rfl
  | cons l ls ih =>
    intro skip insertB c₁ c₂
    rcases skip with _ | n
    · rw [pass2, pass2]
      by_cases hb : l.isEmpty
      · simp only [hb, if_pos]
        rcases insertB with _ | _ <;>
          · simp
            exact ih 0 false c₁ c₂
      · by_cases hc : l.head? = some ';'
        · simp [hb, hc, ih]
        · simp [hb, hc, ih, codeLineSwitch]
    · rw [pass2, pass2]
      exact ih n insertB c₁ c₂

theorem pass2_fresh_vs_carried (cfg : Config) (br : Str) (mcw : Nat)
    (ls : List Str) (b c : Bool) :
    (pass2 cfg br mcw ⟨b, c⟩ false 0 ls).1 =
      (pass2 cfg br mcw ⟨false, false⟩ false 0 ls).1 ∨
    br ++ (pass2 cfg br mcw ⟨b, c⟩ false 0 ls).1 =
      (pass2 cfg br mcw ⟨false, false⟩ false 0 ls).1 := by
  rcases hbc : (b || c) with _ | _
  · left
    rcases b with _ | _ <;> rcases c with _ | _ <;> simp_all
  · rcases ls with _ | ⟨l, ls⟩
    · left; rfl
    · rw [pass2, pass2]
      by_cases hb2 : l.isEmpty
      · left
        simp only [hb2, if_pos]
        have hX := pass2_blank_agnostic cfg br mcw ls 0 false c false
        exact congrArg _ hX
      · by_cases hc2 : l.head? = some ';'
        · simp only [hb2, hc2, Bool.false_eq_true, if_false, if_pos]
          by_cases hS : isSectionDirective
              (if (PeekNextCodeLine false ls).2 then ({} : LineInfo)
               else GetLineInfo (PeekNextCodeLine false ls).1).directive = true
          · right
            simp [hS, hbc]
          · left
            simp [hS, hbc]
        · simp only [hb2, hc2, Bool.false_eq_true, if_false]
          by_cases hSec : isSectionDirective (GetLineInfo l).directive = true
          · right
            simp [codeLineSwitch, hSec, hbc]
          · left
            simp [codeLineSwitch, hSec, hbc]

theorem normalizeResult_prepend (cfg : Config) (br s : Str) (hbr : br ≠ []) :
    normalizeResult cfg br (br ++ s) = normalizeResult cfg br s := by
  unfold normalizeResult
  simp only []
  rw [ite_self, ite_self]
  obtain ⟨R, hnp, h1, h2⟩ := collapseLeading_ensure_pair br s hbr
  rw [h1, if_pos (List.isPrefixOf_iff_prefix.mpr ⟨s, rfl⟩), h2]

theorem FormatFileWFrom_eq (prev : PrevLine) (cfg : Config) (input : Str) :
    FormatFileWFrom prev cfg input = FormatFileWFrom {} cfg input := by
  obtain ⟨pb, pc⟩ := prev
  unfold FormatFileWFrom
  simp only []
  have hbrne : (if (decide (GetLineBreak input = LineBreak.CRLF)) = true
      then (['\r', '\n'] : Str) else ['\n']) ≠ [] := by
    rcases decide (GetLineBreak input = LineBreak.CRLF) with _ | _ <;> simp
  rcases pass2_fresh_vs_carried cfg
      (if (decide (GetLineBreak input = LineBreak.CRLF)) = true then ['\r', '\n'] else ['\n'])
      ((pass1lines (decide (GetLineBreak input = LineBreak.CRLF)) input).foldl maxCodeStep 0)
      (pass1lines (decide (GetLineBreak input = LineBreak.CRLF)) input) pb pc with h | h
  · rw [h]
  · rw [← h, normalizeResult_prepend cfg _ _ hbrne]


/-- Claim C5 (confirmed): formatting runs are independent of whatever a
previous run left in the process-wide state.  The static `previous_line`
may hold any blank/comment combination at entry (its other fields are
never read) and `insert_blankline` is consumed in the very loop
iteration that sets it, so every run leaves it false (second conjunct);
whatever the carried `previous_line`, the produced buffer and error are
those of a run from the zero-initialized state: at most one extra
leading line break can be emitted for the first line, and the leading
blank-line normalization erases that difference. -/
theorem C5_run_independence (cfg : Config) (input : Str) (prev : PrevLine) :
    FormatFileWFrom prev cfg input = FormatFileW cfg input ∧
    (∀ (br : Str) (mcw : Nat) (ls : List Str) (skip : Nat) (prev2 : PrevLine),
      (pass2 cfg br mcw prev2 false skip ls).2.2 = false) :=
  ⟨FormatFileWFrom_eq prev cfg input,
    fun br mcw ls skip prev2 => pass2_insert_false cfg br mcw ls skip prev2⟩

theorem getLast?_dropWhile (p : α → Bool) (l : List α) (h : l.dropWhile p ≠ []) :
    (l.dropWhile p).getLast? = l.getLast? := by
  induction l with
  | nil => simp at h
  | cons c cs ih =>
    by_cases hc : p c
    · rw [List.dropWhile_cons, if_pos hc] at h ⊢
      have hcs : cs ≠ [] := by
        intro h0
        rw [h0] at h
        simp at h
      rw [ih h]
      rcases cs with _ | ⟨d, ds⟩
      · simp at hcs
      · rfl
    · rw [List.dropWhile_cons, if_neg hc]

theorem trimTrailing_head? (y : Str) (c : Char) (h : (trimTrailing y).head? = some c) :
    y.head? = some c := by
  unfold trimTrailing at h
  have hne : y.reverse.dropWhile isWs ≠ [] := by
    intro h0
    rw [h0] at h
    simp at h
  rw [List.head?_reverse, getLast?_dropWhile isWs y.reverse hne,
    List.getLast?_reverse] at h
  exact h

theorem trimLine_head_not_ws (x : Str) (c : Char) (h : (trimLine x).head? = some c) :
    isWs c = false := by
  unfold trimLine at h
  have h2 := trimTrailing_head? _ c h
  have hne : x.dropWhile isWs ≠ [] := by
    intro h0
    rw [h0] at h2
    simp at h2
  have h3 := List.head_dropWhile_not isWs x hne
  rw [List.head?_eq_head hne] at h2
  rw [Option.some.inj h2] at h3
  exact h3

theorem maxCodeStep_le (m : Nat) (t : Str) : m ≤ maxCodeStep m t := by
  unfold maxCodeStep
  split
  · exact le_rfl
  · split
    · split <;> omega
    · exact le_rfl

theorem foldl_maxCodeStep_init_le (ls : List Str) : ∀ m, m ≤ ls.foldl maxCodeStep m := by
  induction ls with
  | nil => intro m; exact le_rfl
  | cons t ls ih =>
    intro m
    rw [List.foldl_cons]
    exact le_trans (maxCodeStep_le m t) (ih _)

theorem codeLen_le_foldl (ls : List Str) : ∀ (m : Nat) (t : Str), t ∈ ls →
    t.head? ≠ some ';' → ∀ k, codeLenOfLine t = some k → k ≤ ls.foldl maxCodeStep m := by
  induction ls with
  | nil => intro m t ht; simp at ht
  | cons u ls ih =>
    intro m t ht hh k hk
    rcases List.mem_cons.mp ht with rfl | ht2
    · rw [List.foldl_cons]
      have hstep : k ≤ maxCodeStep m t := by
        unfold maxCodeStep
        rw [if_neg hh, hk]
        dsimp only
        split <;> omega
      exact le_trans hstep (foldl_maxCodeStep_init_le ls _)
    · exact ih _ t ht2 hh k hk

theorem semi_decomp (t : Str) (hsemi : ';' ∈ t) :
    ∃ B, t = t.takeWhile (fun c => decide (c ≠ ';')) ++ ';' :: B := by
  have hD : t.dropWhile (fun c => decide (c ≠ ';')) ≠ [] := by
    intro h0
    have := List.dropWhile_eq_nil_iff.mp h0 ';' hsemi
    simp at this
  obtain ⟨d, B, hDB⟩ : ∃ d B, t.dropWhile (fun c => decide (c ≠ ';')) = d :: B := by
    rcases h : t.dropWhile (fun c => decide (c ≠ ';')) with _ | ⟨d, B⟩
    · exact absurd h hD
    · exact ⟨d, B, rfl⟩
  have hd : d = ';' := by
    have h1 := dropWhile_head_false (fun c => decide (c ≠ ';')) t d B hDB
    simpa using h1
  refine ⟨B, ?_⟩
  conv_lhs => rw [← List.takeWhile_append_dropWhile (fun c => decide (c ≠ ';')) t]
  rw [hDB, hd]

theorem trimTrailing_decomp (A : Str) :
    A = trimTrailing A ++ (A.reverse.takeWhile isWs).reverse ∧
    (∀ c ∈ (A.reverse.takeWhile isWs).reverse, isWs c = true) := by
  constructor
  · have h : A.reverse = A.reverse.takeWhile isWs ++ A.reverse.dropWhile isWs :=
      (List.takeWhile_append_dropWhile isWs A.reverse).symm
    calc A = A.reverse.reverse := (List.reverse_reverse A).symm
    _ = (A.reverse.takeWhile isWs ++ A.reverse.dropWhile isWs).reverse := by rw [← h]
    _ = _ := by
        rw [List.reverse_append]
        rfl
  · exact fun c hc => List.mem_takeWhile_imp (List.mem_reverse.mp hc)

theorem lookahead_at_trim (A B : Str) :
    lookaheadSemi (A ++ ';' :: B) (trimTrailing A).length = true := by
  set P := trimTrailing A with hPdef
  set W := (A.reverse.takeWhile isWs).reverse with hWdef
  obtain ⟨hPW, hW⟩ := trimTrailing_decomp A
  unfold lookaheadSemi
  have hdrop : (A ++ ';' :: B).drop P.length = W ++ ';' :: B := by
    conv_lhs => rw [hPW, List.append_assoc]
    exact List.drop_left _ _
  rw [hdrop, dropWhile_append_right _ _ _ hW]
  simp [List.dropWhile_cons, show isWs ';' = false from by decide]

theorem trimTrailing_getLast_not_ws (A : Str) (c : Char)
    (h : (trimTrailing A).getLast? = some c) : isWs c = false := by
  unfold trimTrailing at h
  rw [List.getLast?_reverse] at h
  have hne : A.reverse.dropWhile isWs ≠ [] := by
    intro h0
    rw [h0] at h
    simp at h
  have h2 := List.head_dropWhile_not isWs A.reverse hne
  rw [List.head?_eq_head hne] at h
  rw [Option.some.inj h] at h2
  exact h2

theorem lookahead_lt_trim (A B : Str) (hAs : ∀ c ∈ A, c ≠ ';') (j : Nat)
    (hj : j < (trimTrailing A).length) :
    lookaheadSemi (A ++ ';' :: B) j = false := by
  set P := trimTrailing A with hPdef
  set W := (A.reverse.takeWhile isWs).reverse with hWdef
  obtain ⟨hPW, hW⟩ := trimTrailing_decomp A
  have htfull : A ++ ';' :: B = P ++ (W ++ ';' :: B) := by
    conv_lhs => rw [hPW]
    rw [List.append_assoc]
  have hdropj : (A ++ ';' :: B).drop j = P.drop j ++ (W ++ ';' :: B) := by
    rw [htfull]
    exact List.drop_append_of_le_length (by omega)
  have hne : P.drop j ≠ [] := by
    have : (P.drop j).length = P.length - j := List.length_drop j P
    intro h0
    rw [h0] at this
    simp at this
    omega
  have hgl : (P.drop j).getLast? = P.getLast? := by
    rw [List.getLast?_drop]
    simp only [if_neg (by omega : ¬ P.length ≤ j)]
  have hPne : P ≠ [] := by
    intro h0
    rw [h0] at hj
    simp at hj
  have hglP : P.getLast? = some (P.getLast hPne) := List.getLast?_eq_getLast P hPne
  have hws : isWs (P.getLast hPne) = false :=
    trimTrailing_getLast_not_ws A _ hglP
  have hnds : (P.drop j).dropWhile isWs ≠ [] := by
    intro h0
    have hall := List.dropWhile_eq_nil_iff.mp h0
    have hlast_mem : (P.drop j).getLast hne ∈ P.drop j := List.getLast_mem hne
    have h1 : isWs ((P.drop j).getLast hne) = true := hall _ hlast_mem
    have h2 : (P.drop j).getLast hne = P.getLast hPne := by
      have := List.getLast?_eq_getLast (P.drop j) hne
      rw [hgl, hglP] at this
      exact Option.some.inj this.symm
    rw [h2, hws] at h1
    exact Bool.false_ne_true h1
  unfold lookaheadSemi
  rw [hdropj, dropWhile_append_left _ _ _ hnds]
  obtain ⟨a, rest, har⟩ : ∃ a rest, (P.drop j).dropWhile isWs = a :: rest := by
    rcases h : (P.drop j).dropWhile isWs with _ | ⟨a, rest⟩
    · exact absurd h hnds
    · exact ⟨a, rest, rfl⟩
  rw [har]
  have ha : a ∈ A := by
    apply mem_trimTrailing
    exact (List.drop_sublist j P).mem
      ((List.dropWhile_sublist isWs).mem (by rw [har]; simp))
  have : a ≠ ';' := hAs a ha
  simp [this]

theorem takeWhile_all_append (p : α → Bool) (xs ys : List α)
    (h : ∀ a ∈ xs, p a = true) :
    (xs ++ ys).takeWhile p = xs ++ ys.takeWhile p := by
  induction xs with
  | nil => simp
  | cons a xs ih =>
    rw [List.cons_append, List.takeWhile_cons,
      if_pos (h a (List.mem_cons_self a xs)), ih fun b hb => h b (List.mem_cons_of_mem a hb)]
    rfl

theorem trimTrailing_head_cons (c : Char) (z : Str) (hc : isWs c = false) :
    (trimTrailing (c :: z)).head? = some c := by
  unfold trimTrailing
  rw [List.head?_reverse]
  have hne : (c :: z).reverse.dropWhile isWs ≠ [] := by
    intro h0
    have hall := List.dropWhile_eq_nil_iff.mp h0
    have : isWs c = true := hall c (by simp)
    rw [hc] at this
    exact Bool.false_ne_true this
  rw [getLast?_dropWhile isWs _ hne, List.getLast?_reverse]
  rfl

theorem drop_append_len (xs ys : List α) (n : Nat) :
    (xs ++ ys).drop (xs.length + n) = ys.drop n := by
  induction xs with
  | nil => simp
  | cons a xs ih =>
    simp only [List.cons_append, List.length_cons, Nat.succ_add, List.drop_succ_cons]
    exact ih

theorem take_append_len (xs ys : List α) (n : Nat) :
    (xs ++ ys).take (xs.length + n) = xs ++ ys.take n := by
  induction xs with
  | nil => simp
  | cons a xs ih => simp [List.take_cons, Nat.succ_add, ih]

theorem trimTrailing_length_le (A : Str) : (trimTrailing A).length ≤ A.length := by
  unfold trimTrailing
  rw [List.length_reverse]
  calc (A.reverse.dropWhile isWs).length ≤ A.reverse.length :=
    (List.dropWhile_sublist isWs).length_le
  _ = A.length := List.length_reverse A

theorem alignK_none (tab t : Str) (h : ';' ∉ t) : alignK tab t = none := by
  unfold alignK
  simp only []
  rw [List.find?_eq_none.mpr]
  intro k _ hk
  simp only [Bool.and_eq_true, decide_eq_true_eq] at hk
  have hla : lookaheadSemi t k = true := hk.1.2
  unfold lookaheadSemi at hla
  simp only [decide_eq_true_eq] at hla
  have hmem : ';' ∈ (t.drop k).dropWhile isWs := List.mem_of_mem_head? (by rw [hla]; rfl)
  exact h ((List.drop_sublist k t).mem ((List.dropWhile_sublist isWs).mem hmem))

theorem alignK_eq (tab pre A B : Str)
    (hp : (if tab.isPrefixOf (pre ++ (A ++ ';' :: B)) then tab.length else 0) = pre.length)
    (hAs : ∀ c ∈ A, c ≠ ';')
    (hcr : '\r' ∉ A ++ ';' :: B) :
    alignK tab (pre ++ (A ++ ';' :: B)) =
      some (pre.length, pre.length + (trimTrailing A).length) := by
  unfold alignK
  simp only []
  rw [hp]
  have hfind : (List.range ((pre ++ (A ++ ';' :: B)).length + 1)).find? (fun k =>
      decide (pre.length ≤ k) && lookaheadSemi (pre ++ (A ++ ';' :: B)) k &&
        !(((pre ++ (A ++ ';' :: B)).drop pre.length).take (k - pre.length)).contains '\r')
      = some (pre.length + (trimTrailing A).length) := by
    apply find_range_least
    · have h1 : (trimTrailing A).length ≤ A.length := trimTrailing_length_le A
      simp only [List.length_append, List.length_cons]
      omega
    · have hdropPre : (pre ++ (A ++ ';' :: B)).drop pre.length = A ++ ';' :: B := by
        have := drop_append_len pre (A ++ ';' :: B) 0
        simpa using this
      have hla : lookaheadSemi (pre ++ (A ++ ';' :: B))
          (pre.length + (trimTrailing A).length) = true := by
        unfold lookaheadSemi
        rw [drop_append_len]
        exact lookahead_at_trim A B
      simp [hla]
      intro hmem
      exact hcr ((List.take_sublist _ _).mem hmem)
    · intro j hj
      by_cases hpj : pre.length ≤ j
      · obtain ⟨j0, rfl⟩ : ∃ j0, j = pre.length + j0 := ⟨j - pre.length, by omega⟩
        have hla : lookaheadSemi (pre ++ (A ++ ';' :: B)) (pre.length + j0) = false := by
          unfold lookaheadSemi
          rw [drop_append_len]
          have := lookahead_lt_trim A B hAs j0 (by omega)
          unfold lookaheadSemi at this
          exact this
        simp [hla]
      · simp [hpj]
  rw [hfind]

theorem takeWhile_all (p : α → Bool) (xs : List α) (h : ∀ a ∈ xs, p a = true) :
    xs.takeWhile p = xs := by
  induction xs with
  | nil => rfl
  | cons a xs ih =>
    rw [List.takeWhile_cons, if_pos (h a (List.mem_cons_self a xs)),
      ih fun b hb => h b (List.mem_cons_of_mem a hb)]

theorem alignApply_spaces_eq (cfg : Config) (mcw : Nat) (indent : Bool)
    (pre A B : Str)
    (hp : (if (tabStr cfg).isPrefixOf (pre ++ (A ++ ';' :: B)) then (tabStr cfg).length
        else 0) = pre.length)
    (hAs : ∀ c ∈ A, c ≠ ';')
    (hcrA : '\r' ∉ A) (hcrB : '\r' ∉ B) :
    alignApply cfg mcw indent (pre ++ (A ++ ';' :: B)) =
      (pre ++ trimTrailing A) ++
        alignPad cfg mcw (trimTrailing A).length indent ++
        (';' :: ' ' :: B.dropWhile isWs) := by
  obtain ⟨hPW, hW⟩ := trimTrailing_decomp A
  set P := trimTrailing A with hPdef
  set W := (A.reverse.takeWhile isWs).reverse with hWdef
  have hAeq : A ++ ';' :: B = P ++ (W ++ ';' :: B) := by
    conv_lhs => rw [hPW]
    rw [List.append_assoc]
  have hcr' : '\r' ∉ A ++ ';' :: B := by
    simp only [List.mem_append, List.mem_cons]
    rintro (h | h | h)
    · exact hcrA h
    · exact absurd h.symm (by decide)
    · exact hcrB h
  have hALen : A.length = P.length + W.length := by
    rw [hPW, List.length_append]
  unfold alignApply
  rw [alignK_eq (tabStr cfg) pre A B hp hAs hcr']
  simp only []
  have hd1 : (pre ++ (A ++ ';' :: B)).drop (pre.length + P.length) = W ++ ';' :: B := by
    rw [drop_append_len, hAeq, List.drop_left]
  have hw1 : (W ++ ';' :: B).takeWhile isWs = W := by
    rw [takeWhile_all_append isWs W (';' :: B) hW, List.takeWhile_cons,
      if_neg (by decide : ¬ isWs ';' = true)]
    simp
  have hd2 : (pre ++ (A ++ ';' :: B)).drop (pre.length + P.length + W.length) = ';' :: B := by
    rw [Nat.add_assoc, drop_append_len, hAeq, drop_append_len, List.drop_left]
  have hd3 : (pre ++ (A ++ ';' :: B)).drop (pre.length + P.length + W.length + 1) = B := by
    rw [show pre.length + P.length + W.length + 1 =
        pre.length + (P.length + (W.length + 1)) from by omega,
      drop_append_len, hAeq, drop_append_len, drop_append_len]
    rfl
  have hw2 : B.takeWhile (fun c => decide ¬(c = '\r')) = B := by
    apply takeWhile_all
    intro b hb
    have : b ≠ '\r' := fun he => hcrB (he ▸ hb)
    simp [this]
  have hd4 : (pre ++ (A ++ ';' :: B)).drop
      (pre.length + P.length + W.length + 1 + B.length) = [] := by
    apply List.drop_eq_nil_of_le
    simp only [List.length_append, List.length_cons]
    omega
  have ht : (pre ++ (A ++ ';' :: B)).take (pre.length + P.length) = pre ++ P := by
    rw [take_append_len, hAeq, List.take_left]
  have hcd : pre.length + P.length - pre.length = P.length := by omega
  rw [hd1, hw1, hd2, hd3, hw2, hd4, ht, hcd]
  rw [show commentNormalize "; ".toList (';' :: B) =
      ';' :: ' ' :: B.dropWhile isWs from rfl]
  simp

theorem alignApply_spaces (cfg : Config) (mcw : Nat) (indent : Bool) (l : Str)
    (hsp : cfg.spaces = true) (htw : 0 < cfg.tab_width)
    (hcr : '\r' ∉ l) (hnl : '\n' ∉ l)
    (hhead : ∀ c, l.head? = some c → isWs c = false)
    (hbound : ∀ k, codeLenOfLine l = some k → k ≤ mcw) :
    '\n' ∉ alignApply cfg mcw indent (if indent then tabStr cfg ++ l else l) ∧
    (';' ∈ alignApply cfg mcw indent (if indent then tabStr cfg ++ l else l) →
      firstSemiCol (alignApply cfg mcw indent (if indent then tabStr cfg ++ l else l)) =
        cfg.tab_width + mcw + maxmissing cfg.tab_width mcw) := by
  have htab : tabStr cfg = List.replicate cfg.tab_width ' ' := by
    unfold tabStr
    rw [if_pos hsp]
  have hline : (if indent then tabStr cfg ++ l else l) =
      (if indent then tabStr cfg else []) ++ l := by
    cases indent <;> simp
  set pre := if indent then tabStr cfg else [] with hpredef
  have hpre_sp : ∀ c ∈ pre, c = ' ' := by
    intro c hc
    rw [hpredef] at hc
    cases indent
    · simp at hc
    · rw [if_pos rfl, htab] at hc
      exact (List.eq_of_mem_replicate hc)
  rw [hline]
  by_cases hsem : ';' ∈ l
  · obtain ⟨B, hsplit0⟩ := semi_decomp l hsem
    set A := l.takeWhile (fun c => decide (c ≠ ';')) with hAdef
    have hsplit : l = A ++ ';' :: B := hsplit0
    have hAs : ∀ c ∈ A, c ≠ ';' := by
      intro c hc
      rw [hAdef] at hc
      have := List.mem_takeWhile_imp hc
      simpa using this
    have hAsub : ∀ c ∈ A, c ∈ l := by
      intro c hc
      rw [hAdef] at hc
      exact (List.takeWhile_sublist _).mem hc
    have hBsub : ∀ c ∈ B, c ∈ l := by
      intro c hc
      rw [hsplit]
      simp [hc]
    have hcrA : '\r' ∉ A := fun h => hcr (hAsub _ h)
    have hcrB : '\r' ∉ B := fun h => hcr (hBsub _ h)
    have hp : (if (tabStr cfg).isPrefixOf (pre ++ (A ++ ';' :: B)) then (tabStr cfg).length
        else 0) = pre.length := by
      rw [← hsplit, hpredef]
      cases indent
      · simp only [if_neg (Bool.false_ne_true), List.nil_append]
        have hnp : (tabStr cfg).isPrefixOf l = false := by
          rw [Bool.eq_false_iff]
          intro hpf
          obtain ⟨t, ht⟩ := List.isPrefixOf_iff_prefix.mp hpf
          obtain ⟨n, hn⟩ : ∃ n, cfg.tab_width = n + 1 := ⟨cfg.tab_width - 1, by omega⟩
          rw [htab, hn, List.replicate_succ, List.cons_append] at ht
          have hh : l.head? = some ' ' := by rw [← ht]; rfl
          have := hhead ' ' hh
          exact absurd this (by decide)
        rw [hnp]
        simp
      · rw [if_pos rfl, if_pos (List.isPrefixOf_iff_prefix.mpr ⟨l, rfl⟩)]
    have hcl : (trimTrailing A).length ≤ mcw := by
      apply hbound
      have := codeLenOfLine_eq l hcr hsem
      rw [← hAdef] at this
      exact this
    rw [hsplit, alignApply_spaces_eq cfg mcw indent pre A B hp hAs hcrA hcrB]
    have hpadlen : (alignPad cfg mcw (trimTrailing A).length indent).length =
        if indent then mcw - (trimTrailing A).length + maxmissing cfg.tab_width mcw
        else mcw - (trimTrailing A).length + maxmissing cfg.tab_width mcw + cfg.tab_width := by
      unfold alignPad
      rw [if_pos hsp]
      cases indent <;> simp [List.length_replicate]
    have hpad_sp : ∀ c ∈ alignPad cfg mcw (trimTrailing A).length indent, c = ' ' := by
      intro c hc
      unfold alignPad at hc
      rw [if_pos hsp] at hc
      exact List.eq_of_mem_replicate hc
    constructor
    · intro hmem
      simp only [List.append_assoc, List.mem_append, List.mem_cons] at hmem
      rcases hmem with h | h | h | h | h
      · exact absurd (hpre_sp _ h) (by decide)
      · exact hnl (hAsub _ (mem_trimTrailing _ _ h))
      · exact absurd (hpad_sp _ h) (by decide)
      · exact absurd h (by decide)
      · rcases h with h | h
        · exact absurd h (by decide)
        · exact hnl (hBsub _ ((List.dropWhile_sublist isWs).mem h))
    · intro hin
      unfold firstSemiCol
      rw [List.append_assoc, List.append_assoc]
      rw [takeWhile_all_append _ pre _ (by
        intro c hc
        have := hpre_sp c hc
        simp [this])]
      rw [takeWhile_all_append _ (trimTrailing A) _ (by
        intro c hc
        have := hAs c (mem_trimTrailing _ _ hc)
        simp [this])]
      rw [takeWhile_all_append _ (alignPad cfg mcw (trimTrailing A).length indent) _ (by
        intro c hc
        have := hpad_sp c hc
        simp [this])]
      rw [List.takeWhile_cons, if_neg (by simp)]
      have hprelen : pre.length = if indent then cfg.tab_width else 0 := by
        rw [hpredef]
        cases indent
        · simp
        · rw [if_pos rfl, if_pos rfl, htab, List.length_replicate]
      cases indent
      · simp only [Bool.false_eq_true, if_false] at hpadlen hprelen
        simp only [List.length_append, List.length_nil, hpadlen, hprelen]
        omega
      · simp only [if_true] at hpadlen hprelen
        simp only [List.length_append, List.length_nil, hpadlen, hprelen]
        omega
  · have hsem' : ';' ∉ pre ++ l := by
      intro h
      rcases List.mem_append.mp h with h | h
      · exact absurd (hpre_sp _ h) (by decide)
      · exact hsem h
    unfold alignApply
    rw [alignK_none _ _ hsem']
    constructor
    · intro hmem
      rcases List.mem_append.mp hmem with h | h
      · exact absurd (hpre_sp _ h) (by decide)
      · exact hnl h
    · intro hin
      exact absurd hin hsem'

theorem commentNormalize_semi (repl rest : Str) :
    commentNormalize repl (';' :: rest) = repl ++ rest.dropWhile isWs := rfl

theorem joinBr_append (br : Str) (xs ys : List Str) :
    joinBr br (xs ++ ys) = joinBr br xs ++ joinBr br ys := by
  simp [joinBr]

theorem pass2_step (cfg : Config) (br : Str) (mcw : Nat) (prev : PrevLine) (insertB : Bool)
    (l : Str) (ls : List Str) :
    pass2 cfg br mcw prev insertB 0 (l :: ls) =
      if l.isEmpty then
        let st : PrevLine := { prev with blank := true }
        let r := pass2 cfg br mcw (if insertB then { st with blank := true } else st) false 0 ls
        ((br ++ (if insertB then br else [])) ++ r.1, r.2)
      else if l.head? = some ';' then
        let pk := PeekNextCodeLine false ls
        let ni := if pk.2 then ({} : LineInfo) else GetLineInfo pk.1
        let nextIndent := !pk.2 && TestIndentLine ni
        let line' := commentNormalize
          ((if nextIndent then tabStr cfg else []) ++ "; ".toList) l
        let secIns := !(prev.blank || prev.comment) && isSectionDirective ni.directive
        let st : PrevLine := { blank := insertB, comment := true }
        let r := pass2 cfg br mcw st false 0 ls
        (((if secIns then br else []) ++ line' ++ br ++ (if insertB then br else [])) ++ r.1,
          r.2)
      else
        let pk := PeekNextCodeLine true ls
        let li := GetLineInfo l
        let ni := GetLineInfo pk.1
        let dec := codeLineSwitch prev li ni pk.2 ls
        let indent := TestIndentLine li
        let line1 := if indent then tabStr cfg ++ l else l
        let line' := alignApply cfg mcw indent line1
        let ib := insertB || dec.2.2
        let st : PrevLine := { blank := ib, comment := false }
        let r := pass2 cfg br mcw st false dec.2.1 ls
        (((if dec.1 then br else []) ++ line' ++ br ++ (if ib then br else [])) ++ r.1,
          r.2) := rfl

theorem pass2_emit (cfg : Config) (mcw : Nat)
    (hsp : cfg.spaces = true) (htw : 0 < cfg.tab_width) :
    ∀ (ls : List Str),
      (∀ t ∈ ls, '\r' ∉ t ∧ '\n' ∉ t ∧ (∀ c, t.head? = some c → isWs c = false) ∧
        (t.head? ≠ some ';' → ∀ k, codeLenOfLine t = some k → k ≤ mcw)) →
      ∀ (skip : Nat) (prev : PrevLine) (insertB : Bool),
      ∃ out : List Str,
        (pass2 cfg ['\n'] mcw prev insertB skip ls).1 = joinBr ['\n'] out ∧
        ∀ ol ∈ out, '\n' ∉ ol ∧ (';' ∈ ol → (trimLine ol).head? ≠ some ';' →
          firstSemiCol ol = cfg.tab_width + mcw + maxmissing cfg.tab_width mcw) := by
  intro ls
  induction ls with
  | nil =>
    intro _ skip prev insertB
    refine ⟨[], ?_, by simp⟩
    rcases skip with _ | n <;> simp [pass2, joinBr]
  | cons l ls ih =>
    intro hls skip prev insertB
    have hl := hls l (List.mem_cons_self l ls)
    have hls' : ∀ t ∈ ls, '\r' ∉ t ∧ '\n' ∉ t ∧ (∀ c, t.head? = some c → isWs c = false) ∧
        (t.head? ≠ some ';' → ∀ k, codeLenOfLine t = some k → k ≤ mcw) :=
      fun t ht => hls t (List.mem_cons_of_mem l ht)
    rcases skip with _ | n
    swap
    · obtain ⟨out, ho, hq⟩ := ih hls' n prev insertB
      exact ⟨out, by
        rw [show pass2 cfg ['\n'] mcw prev insertB (n + 1) (l :: ls) =
          pass2 cfg ['\n'] mcw prev insertB n ls from rfl, ho], hq⟩
    · by_cases hemp : l.isEmpty
      · -- blank line branch
        obtain ⟨out, ho, hq⟩ := ih hls' 0
          (if insertB then { { prev with blank := true } with blank := true }
            else { prev with blank := true }) false
        refine ⟨[[]] ++ (if insertB then [[]] else []) ++ out, ?_, ?_⟩
        · rw [pass2_step, if_pos hemp]
          simp only []
          rw [ho, joinBr_append, joinBr_append]
          cases insertB <;> simp [joinBr]
        · intro ol hol
          simp only [List.mem_append, List.mem_cons, or_assoc] at hol
          rcases hol with rfl | h | h | h
          · exact ⟨by simp, by simp⟩
          · simp at h
          · rcases Bool.eq_false_or_eq_true insertB with hb | hb <;> rw [hb] at h
            · simp at h
              subst h
              exact ⟨by simp, by simp⟩
            · simp at h
          · exact hq ol h
      · by_cases hcom : l.head? = some ';'
        · -- comment line branch
          obtain ⟨rest, hrest⟩ : ∃ rest, l = ';' :: rest := by
            rcases l with _ | ⟨c, cs⟩
            · simp at hcom
            · exact ⟨cs, by rw [Option.some.inj hcom]⟩
          obtain ⟨out, ho, hq⟩ := ih hls' 0 { blank := insertB, comment := true } false
          refine ⟨(if !(prev.blank || prev.comment) &&
              isSectionDirective (if (PeekNextCodeLine false ls).2 then ({} : LineInfo)
                else GetLineInfo (PeekNextCodeLine false ls).1).directive
              then [[]] else []) ++
            [commentNormalize
              ((if !(PeekNextCodeLine false ls).2 &&
                  TestIndentLine (if (PeekNextCodeLine false ls).2 then ({} : LineInfo)
                    else GetLineInfo (PeekNextCodeLine false ls).1)
                then tabStr cfg else []) ++ "; ".toList) l] ++
            (if insertB then [[]] else []) ++ out, ?_, ?_⟩
          · rw [pass2_step, if_neg hemp, if_pos hcom]
            simp only []
            rw [ho, joinBr_append, joinBr_append, joinBr_append]
            cases insertB <;>
              cases hsec : !(prev.blank || prev.comment) &&
                isSectionDirective (if (PeekNextCodeLine false ls).2 then ({} : LineInfo)
                  else GetLineInfo (PeekNextCodeLine false ls).1).directive <;>
              simp [joinBr, hsec]
          · intro ol hol
            simp only [List.mem_append, List.mem_cons, or_assoc] at hol
            have hmain : ∀ pre' : Str, (∀ c ∈ pre', isWs c = true) → ('\n' ∉ pre') →
                ('\n' ∉ commentNormalize (pre' ++ "; ".toList) l ∧
                  (';' ∈ commentNormalize (pre' ++ "; ".toList) l →
                    (trimLine (commentNormalize (pre' ++ "; ".toList) l)).head? ≠ some ';' →
                    firstSemiCol (commentNormalize (pre' ++ "; ".toList) l) =
                      cfg.tab_width + mcw + maxmissing cfg.tab_width mcw)) := by
              intro pre' hws hnlp
              rw [hrest, commentNormalize_semi]
              have hform : (pre' ++ "; ".toList) ++ rest.dropWhile isWs =
                  pre' ++ ';' :: ' ' :: rest.dropWhile isWs := by
                rw [show "; ".toList = [';', ' '] from rfl]
                simp
              rw [hform]
              constructor
              · intro hmem
                simp only [List.mem_append, List.mem_cons] at hmem
                rcases hmem with h | h | h | h
                · exact hnlp h
                · exact absurd h (by decide)
                · exact absurd h (by decide)
                · have : '\n' ∈ l := by
                    rw [hrest]
                    exact List.mem_cons_of_mem _ ((List.dropWhile_sublist isWs).mem h)
                  exact hl.2.1 this
              · intro _ hne
                exfalso
                apply hne
                unfold trimLine
                rw [dropWhile_append_right isWs pre' _ hws, List.dropWhile_cons,
                  if_neg (by decide : ¬ isWs ';' = true)]
                exact trimTrailing_head_cons ';' _ (by decide)
            rcases hol with h | h | h | h | h
            · rcases hsec2 : !(prev.blank || prev.comment) &&
                  isSectionDirective (if (PeekNextCodeLine false ls).2 then ({} : LineInfo)
                    else GetLineInfo (PeekNextCodeLine false ls).1).directive with _ | _ <;>
                rw [hsec2] at h
              · simp at h
              · simp at h
                subst h
                exact ⟨by simp, by simp⟩
            · subst h
              apply hmain
              · intro c hc
                rcases hni : !(PeekNextCodeLine false ls).2 &&
                    TestIndentLine (if (PeekNextCodeLine false ls).2 then ({} : LineInfo)
                      else GetLineInfo (PeekNextCodeLine false ls).1) with _ | _ <;>
                  rw [hni] at hc
                · simp at hc
                · simp only [if_true] at hc
                  unfold tabStr at hc
                  rw [if_pos hsp] at hc
                  rw [List.eq_of_mem_replicate hc]
                  decide
              · intro hc
                rcases hni : !(PeekNextCodeLine false ls).2 &&
                    TestIndentLine (if (PeekNextCodeLine false ls).2 then ({} : LineInfo)
                      else GetLineInfo (PeekNextCodeLine false ls).1) with _ | _ <;>
                  rw [hni] at hc
                · simp at hc
                · simp only [if_true] at hc
                  unfold tabStr at hc
                  rw [if_pos hsp] at hc
                  exact absurd (List.eq_of_mem_replicate hc) (by decide)
            · simp at h
            · rcases Bool.eq_false_or_eq_true insertB with hb | hb <;> rw [hb] at h
              · simp at h
                subst h
                exact ⟨by simp, by simp⟩
              · simp at h
            · exact hq ol h
        · -- code line branch
          obtain ⟨out, ho, hq⟩ := ih hls' (codeLineSwitch prev (GetLineInfo l)
              (GetLineInfo (PeekNextCodeLine true ls).1) (PeekNextCodeLine true ls).2 ls).2.1
            { blank := insertB || (codeLineSwitch prev (GetLineInfo l)
                (GetLineInfo (PeekNextCodeLine true ls).1) (PeekNextCodeLine true ls).2
                  ls).2.2, comment := false } false
          have hal := alignApply_spaces cfg mcw (TestIndentLine (GetLineInfo l)) l hsp htw
            hl.1 hl.2.1 hl.2.2.1 (hl.2.2.2 hcom)
          refine ⟨(if (codeLineSwitch prev (GetLineInfo l)
              (GetLineInfo (PeekNextCodeLine true ls).1) (PeekNextCodeLine true ls).2
                ls).1 then [[]] else []) ++
            [alignApply cfg mcw (TestIndentLine (GetLineInfo l))
              (if TestIndentLine (GetLineInfo l) then tabStr cfg ++ l else l)] ++
            (if insertB || (codeLineSwitch prev (GetLineInfo l)
                (GetLineInfo (PeekNextCodeLine true ls).1) (PeekNextCodeLine true ls).2
                  ls).2.2 then [[]] else []) ++ out, ?_, ?_⟩
          · rw [pass2_step, if_neg hemp, if_neg hcom]
            simp only []
            rw [ho, joinBr_append, joinBr_append, joinBr_append]
            cases hib : insertB || (codeLineSwitch prev (GetLineInfo l)
                (GetLineInfo (PeekNextCodeLine true ls).1) (PeekNextCodeLine true ls).2
                  ls).2.2 <;>
              cases hdec : (codeLineSwitch prev (GetLineInfo l)
                (GetLineInfo (PeekNextCodeLine true ls).1) (PeekNextCodeLine true ls).2
                  ls).1 <;>
              simp [joinBr, hib, hdec]
          · intro ol hol
            simp only [List.mem_append, List.mem_cons, or_assoc] at hol
            rcases hol with h | h | h | h | h
            · rcases hdec : (codeLineSwitch prev (GetLineInfo l)
                  (GetLineInfo (PeekNextCodeLine true ls).1) (PeekNextCodeLine true ls).2
                    ls).1 with _ | _ <;> rw [hdec] at h
              · simp at h
              · simp at h
                subst h
                exact ⟨by simp, by simp⟩
            · subst h
              exact ⟨hal.1, fun hin _ => hal.2 hin⟩
            · simp at h
            · rcases hib : insertB || (codeLineSwitch prev (GetLineInfo l)
                  (GetLineInfo (PeekNextCodeLine true ls).1) (PeekNextCodeLine true ls).2
                    ls).2.2 with _ | _ <;> rw [hib] at h
              · simp at h
              · simp at h
                subst h
                exact ⟨by simp, by simp⟩
            · exact hq ol h

theorem getlines_cons_nl (s : Str) : getlines ('\n' :: s) = [] :: getlines s := by
  simp [getlines]

theorem getlines_cons_ne (c : Char) (s : Str) (hc : c ≠ '\n') :
    getlines (c :: s) = match getlines s with
      | [] => []
      | l :: ls => (c :: l) :: ls := by
  simp [getlines, hc]

theorem getlines_repStr_nl (k : Nat) (x : Str) :
    getlines (repStr ['\n'] k ++ x) = List.replicate k [] ++ getlines x := by
  induction k with
  | zero => simp [repStr]
  | succ n ih =>
    rw [repStr, show (['\n'] ++ repStr ['\n'] n) ++ x = '\n' :: (repStr ['\n'] n ++ x) from
      by simp, getlines_cons_nl, ih, List.replicate_succ]
    rfl

theorem getlines_term_ne_nil (Y : Str) : getlines (Y ++ ['\n']) ≠ [] := by
  induction Y with
  | nil => simp [getlines]
  | cons c Y ih =>
    by_cases hc : c = '\n'
    · subst hc
      rw [List.cons_append, getlines_cons_nl]
      simp
    · rw [List.cons_append, getlines_cons_ne c _ hc]
      obtain ⟨l, ls', hT⟩ : ∃ l ls', getlines (Y ++ ['\n']) = l :: ls' := by
        rcases h : getlines (Y ++ ['\n']) with _ | ⟨l, ls'⟩
        · exact absurd h ih
        · exact ⟨l, ls', rfl⟩
      rw [hT]
      simp

theorem getlines_append_nl (Y Z : Str) :
    getlines (Y ++ '\n' :: Z) = getlines (Y ++ ['\n']) ++ getlines Z := by
  induction Y with
  | nil => simp [getlines_cons_nl, getlines]
  | cons c Y ih =>
    by_cases hc : c = '\n'
    · subst hc
      rw [List.cons_append, getlines_cons_nl, List.cons_append, getlines_cons_nl, ih]
      rfl
    · rw [List.cons_append, List.cons_append, getlines_cons_ne c _ hc,
        getlines_cons_ne c _ hc]
      obtain ⟨l, ls', hT⟩ : ∃ l ls', getlines (Y ++ ['\n']) = l :: ls' := by
        rcases h : getlines (Y ++ ['\n']) with _ | ⟨l, ls'⟩
        · exact absurd h (getlines_term_ne_nil Y)
        · exact ⟨l, ls', rfl⟩
      rw [ih, hT]
      rfl

theorem collapseLeading_decomp (br s : Str) (hbr : br ≠ []) :
    ∃ k R, s = repStr br k ++ R ∧ ¬ br.isPrefixOf R ∧
      collapseLeadingBreaks br (if br.isPrefixOf s then s else br ++ s) = br ++ R := by
  obtain ⟨rest, hdec, hnp⟩ := countLeadingRep_decomp br hbr s
  set k := countLeadingRep br s with hkdef
  refine ⟨k, rest, hdec, hnp, ?_⟩
  by_cases hp : br.isPrefixOf s
  · rw [if_pos hp]
    have hk1 : 1 ≤ k := by
      by_contra hk
      have hk0 : k = 0 := by omega
      rw [hk0, repStr, List.nil_append] at hdec
      exact hnp (hdec ▸ hp)
    unfold collapseLeadingBreaks
    rw [← hkdef]
    by_cases hk2 : 2 ≤ k
    · rw [if_pos hk2]
      congr 1
      rw [hdec]
      exact drop_repStr br rest k
    · rw [if_neg hk2]
      have hk' : k = 1 := by omega
      rw [hdec, hk', repStr_one]
  · rw [if_neg hp]
    have hk0 : k = 0 := countLeadingRep_not_prefixOf br s hp
    rw [hk0, repStr, List.nil_append] at hdec
    unfold collapseLeadingBreaks
    rw [countLeadingRep_cons br s hbr, ← hkdef, hk0]
    simp only [Nat.zero_add, show ¬ (2 ≤ 1) by omega, if_false]
    rw [hdec]

theorem normalizeResult_mem (cfg : Config) (out : List Str)
    (h : ∀ l ∈ out, '\n' ∉ l) :
    ∀ ol ∈ getlines (normalizeResult cfg ['\n'] (joinBr ['\n'] out)),
      ol = [] ∨ ol ∈ out := by
  intro ol hol
  unfold normalizeResult at hol
  simp only [] at hol
  rw [ite_self] at hol
  obtain ⟨k, R, hdec, hnp, hcl⟩ := collapseLeading_decomp ['\n'] (joinBr ['\n'] out)
    (by decide)
  rw [hcl, removeEndp_single ['\n'] R (by decide) hnp] at hol
  have hS : getlines (joinBr ['\n'] out) = out := getlines_joinBr_lf out h
  have hR : ∀ x, x ∈ getlines R → x ∈ out := by
    intro x hx
    rw [← hS, hdec, getlines_repStr_nl]
    exact List.mem_append_right _ hx
  have hX : ∀ (X : Str), (X = R ∨ X = ['\n'] ++ R) → ∀ x ∈ getlines X,
      x = [] ∨ x ∈ out := by
    rintro X (rfl | rfl) x hx
    · exact Or.inr (hR x hx)
    · rw [show ['\n'] ++ R = '\n' :: R from rfl, getlines_cons_nl] at hx
      rcases List.mem_cons.mp hx with rfl | hx
      · exact Or.inl rfl
      · exact Or.inr (hR x hx)
  have hXmem : ∀ (X : Str), (X = R ∨ X = ['\n'] ++ R) →
      ol ∈ getlines (collapseTrailingBreaks ['\n'] X) → ol = [] ∨ ol ∈ out := by
    intro X hXc hmem
    rcases collapseTrailing_cases ['\n'] X (by decide) with hc | ⟨Y, m, hm2, hXdec, hc⟩
    · rw [hc] at hmem
      exact hX X hXc ol hmem
    · rw [hc] at hmem
      have hmem2 : ol ∈ getlines X := by
        obtain ⟨m', rfl⟩ : ∃ m', m = m' + 1 := ⟨m - 1, by omega⟩
        rw [hXdec, show repStr ['\n'] (m' + 1) = '\n' :: repStr ['\n'] m' from by
          rw [repStr]; rfl, getlines_append_nl]
        exact List.mem_append_left _ hmem
      exact hX X hXc ol hmem2
  split at hol
  · exact hXmem R (Or.inl rfl) hol
  · exact hXmem (['\n'] ++ R) (Or.inr rfl) hol

/-- C4 (amended): in the output of one run in spaces mode (tab_width > 0,
line breaks preserved, LF input assembled from well-formed lines), every
output line that is not a comment line (its trimmed text does not start
with the delimiter) and contains an inline comment delimiter has that
delimiter begin at one common character column, and that column equals
`tab_width + maxcodelen + maxmissing` — one indent unit plus the computed
maximum code width rounded up to the next strictly greater multiple of
`tab_width` — not the smallest tab stop greater than or equal to the
maximum code width that the original claim states. -/
theorem C4_comment_column (cfg : Config) (lines : List Str)
    (hsp : cfg.spaces = true) (htw : 0 < cfg.tab_width)
    (hlb : cfg.line_break = LineBreak.Preserve)
    (hwf : ∀ l ∈ lines, lineWF l) :
    ∀ ol ∈ getlines (FormatFileW cfg (joinBr ['\n'] lines)).1,
      (trimLine ol).head? ≠ some ';' → ';' ∈ ol →
      firstSemiCol ol =
        cfg.tab_width + computedMaxCodeWidth false (joinBr ['\n'] lines) +
          maxmissing cfg.tab_width (computedMaxCodeWidth false (joinBr ['\n'] lines)) := by
  have hnl : ∀ l ∈ lines, '\n' ∉ l := fun l hl => (hwf l hl).1
  have hGL : GetLineBreak (joinBr ['\n'] lines) = LineBreak.LF := by
    have := GetLineBreak_joinBr false lines hwf (by simp)
    simpa using this
  have hls : pass1lines false (joinBr ['\n'] lines) = lines.map trimLine := by
    unfold pass1lines
    rw [getlines_joinBr_lf lines hnl]
    apply List.map_congr_left
    intro l _
    simp [dropCR]
  have hout : (FormatFileW cfg (joinBr ['\n'] lines)).1 =
      normalizeResult cfg ['\n']
        (pass2 cfg ['\n'] (computedMaxCodeWidth false (joinBr ['\n'] lines))
          {} false 0 (pass1lines false (joinBr ['\n'] lines))).1 := by
    unfold FormatFileW FormatFileWFrom computedMaxCodeWidth
    simp only []
    rw [hGL, hlb]
    simp
  have hprops : ∀ t ∈ lines.map trimLine,
      '\r' ∉ t ∧ '\n' ∉ t ∧ (∀ c, t.head? = some c → isWs c = false) ∧
        (t.head? ≠ some ';' → ∀ k, codeLenOfLine t = some k →
          k ≤ computedMaxCodeWidth false (joinBr ['\n'] lines)) := by
    intro t ht
    obtain ⟨l0, hl0, rfl⟩ := List.mem_map.mp ht
    refine ⟨fun hc => (hwf l0 hl0).2 (mem_trimLine _ _ hc),
      fun hc => (hwf l0 hl0).1 (mem_trimLine _ _ hc),
      fun c hc => trimLine_head_not_ws l0 c hc, ?_⟩
    intro hh k hk
    have : k ≤ (lines.map trimLine).foldl maxCodeStep 0 :=
      codeLen_le_foldl (lines.map trimLine) 0 (trimLine l0) ht hh k hk
    unfold computedMaxCodeWidth
    rw [hls]
    exact this
  obtain ⟨out, hbody, hq⟩ := pass2_emit cfg
    (computedMaxCodeWidth false (joinBr ['\n'] lines)) hsp htw
    (lines.map trimLine) hprops 0 {} false
  intro ol hol hhead hsem
  rw [hout, hls, hbody] at hol
  rcases normalizeResult_mem cfg out (fun l hl => (hq l hl).1) ol hol with rfl | hmem
  · simp at hsem
  · exact (hq ol hmem).2 hsem hhead

theorem C4_comment_column_witness :
    (0 < cfgSp.tab_width ∧ ∀ l ∈ [['m','o','v',' ',';','c']], lineWF l) ∧
    (∀ ol ∈ getlines (FormatFileW cfgSp (joinBr ['\n'] [['m','o','v',' ',';','c']])).1,
      (trimLine ol).head? ≠ some ';' → ';' ∈ ol →
      firstSemiCol ol =
        cfgSp.tab_width +
          computedMaxCodeWidth false (joinBr ['\n'] [['m','o','v',' ',';','c']]) +
          maxmissing cfgSp.tab_width
            (computedMaxCodeWidth false (joinBr ['\n'] [['m','o','v',' ',';','c']]))) :=
  ⟨⟨by decide, by decide⟩,
    C4_comment_column cfgSp [['m','o','v',' ',';','c']] rfl (by decide) rfl (by decide)⟩

end AsmFormat
